import Mathlib

/-!
Verification of the Krippendorff's alpha reliability engine from
`src/krippendorff_alpha` (`metric.py`, `reliability.py`, `preprocessing.py`,
`data_handler.py`, `schema.py`, `constants.py`).

Modelling conventions:

* Python floats are modelled as exact rationals extended with the IEEE-754
  special values `+inf`, `-inf` and `nan` (type `EF`).  Binary rounding error
  is not modelled; every arithmetic step of the engine is exact on the
  rationals, so quantities such as `0.0`, `1.0` and decimal roundings are
  reproduced exactly.
* A cell of the reliability matrix is `Option ℚ`: `none` is the NaN missing
  sentinel that the engine tests with `np.isnan`, `some q` is a finite coded
  value.  (The matrix as handed to `krippendorff_alpha` contains either
  finite values or NaN; NaN cells are only ever used as the missing marker.)
* Python dicts are association lists in insertion order; updates replace the
  value of the first matching key in place, otherwise append (the behaviour
  of `dict.__setitem__`).
* `int(x)` on a float truncates toward zero: `truncToInt`.
* `round(x, 3)` on a float is round-half-to-even at 3 decimal places:
  `round3q` / `EF.round3`; `round` of `inf`/`nan` returns them unchanged.
-/

namespace Krip

/-- An IEEE-754-style Python float value: a finite rational (exact, binary
rounding not modelled), positive infinity, negative infinity, or nan. -/
inductive EF where
  | fin (q : ℚ)
  | inf
  | ninf
  | nan
deriving DecidableEq

/-- IEEE negation of a float. -/
def EF.neg : EF → EF
  | .fin q => .fin (-q)
  | .inf => .ninf
  | .ninf => .inf
  | .nan => .nan

/-- IEEE addition: nan absorbs, `inf + (-inf) = nan`, infinities absorb
finite values, finite addition is exact. -/
def EF.add : EF → EF → EF
  | .nan, _ => .nan
  | _, .nan => .nan
  | .inf, .ninf => .nan
  | .ninf, .inf => .nan
  | .inf, _ => .inf
  | _, .inf => .inf
  | .ninf, _ => .ninf
  | _, .ninf => .ninf
  | .fin a, .fin b => .fin (a + b)

/-- IEEE subtraction, `a - b = a + (-b)`. -/
def EF.sub (a b : EF) : EF := a.add b.neg

/-- IEEE multiplication: nan absorbs, `0 * inf = nan`, signs of infinities
multiply, finite multiplication is exact. -/
def EF.mul : EF → EF → EF
  | .nan, _ => .nan
  | _, .nan => .nan
  | .fin a, .fin b => .fin (a * b)
  | .inf, .inf => .inf
  | .inf, .ninf => .ninf
  | .ninf, .inf => .ninf
  | .ninf, .ninf => .inf
  | .inf, .fin q => if 0 < q then .inf else if q < 0 then .ninf else .nan
  | .fin q, .inf => if 0 < q then .inf else if q < 0 then .ninf else .nan
  | .ninf, .fin q => if 0 < q then .ninf else if q < 0 then .inf else .nan
  | .fin q, .ninf => if 0 < q then .ninf else if q < 0 then .inf else .nan

/-- IEEE division (numpy float64 semantics for division by zero: `x/0` is
`±inf` for `x ≠ 0` and `nan` for `0/0`; every division the engine performs is
guarded, so the zero-divisor branches are unreachable there).  `fin / inf = 0`,
`inf / inf = nan`, `inf / fin` keeps the sign. -/
def EF.div : EF → EF → EF
  | .nan, _ => .nan
  | _, .nan => .nan
  | .fin a, .fin b =>
      if b = 0 then (if a = 0 then .nan else if 0 < a then .inf else .ninf)
      else .fin (a / b)
  | .fin _, .inf => .fin 0
  | .fin _, .ninf => .fin 0
  | .inf, .fin b => if 0 ≤ b then .inf else .ninf
  | .ninf, .fin b => if 0 ≤ b then .ninf else .inf
  | .inf, .inf => .nan
  | .inf, .ninf => .nan
  | .ninf, .inf => .nan
  | .ninf, .ninf => .nan

/-- The comparison `x > 0` on floats: false for nan (IEEE comparisons with
nan are false) and for `-inf`, true for `+inf`. -/
def EF.gtZero : EF → Bool
  | .fin q => decide (0 < q)
  | .inf => true
  | .ninf => false
  | .nan => false

/-- Python's `round` to an integer: round half to even (banker's rounding). -/
def roundHE (x : ℚ) : ℤ :=
  if x - (⌊x⌋ : ℚ) < 1/2 then ⌊x⌋
  else if 1/2 < x - (⌊x⌋ : ℚ) then ⌊x⌋ + 1
  else if ⌊x⌋ % 2 = 0 then ⌊x⌋ else ⌊x⌋ + 1

/-- `DEFAULT_DECIMAL_PLACES` from `constants.py`. -/
def DEFAULT_DECIMAL_PLACES : ℕ := 3

/-- `SYMMETRIC_DISAGREEMENT_DIVISOR` from `constants.py`. -/
def SYMMETRIC_DISAGREEMENT_DIVISOR : ℚ := 2

/-- `MIN_ANNOTATORS_REQUIRED` from `constants.py`. -/
def MIN_ANNOTATORS_REQUIRED : ℕ := 3

/-- `MIN_SUBJECTS_REQUIRED` from `constants.py`. -/
def MIN_SUBJECTS_REQUIRED : ℕ := 3

/-- Python's `round(x, 3)` on a finite float, exactly (half to even). -/
def round3q (x : ℚ) : ℚ :=
  (roundHE (x * 10 ^ DEFAULT_DECIMAL_PLACES) : ℚ) / 10 ^ DEFAULT_DECIMAL_PLACES

/-- Python's `round(x, 3)` on a float: `round` returns `inf`, `-inf` and
`nan` unchanged. -/
def EF.round3 : EF → EF
  | .fin q => .fin (round3q q)
  | .inf => .inf
  | .ninf => .ninf
  | .nan => .nan

/-- Python's `int(x)` on a float: truncation toward zero. -/
def truncToInt (q : ℚ) : ℤ := q.num.tdiv (q.den : ℤ)

/-- Lookup in a Python dict modelled as an association list (first matching
key; `dflt` is the `dict.get` default). -/
def dget {κ α : Type} [DecidableEq κ] (d : List (κ × α)) (k : κ) (dflt : α) : α :=
  match d.find? (fun kv => kv.1 = k) with
  | some kv => kv.2
  | none => dflt

/-- Python dict assignment `d[k] = v`: replace the value of an existing key
in place, otherwise append (dicts preserve insertion order). -/
def dset {κ α : Type} [DecidableEq κ] : List (κ × α) → κ → α → List (κ × α)
  | [], k, v => [(k, v)]
  | kv :: rest, k, v => if kv.1 = k then (k, v) :: rest else kv :: dset rest k v

/-- The `DataTypeEnum` of `schema.py` (constructor names are the enum's
string values `"nominal"`, `"ordinal"`, `"interval"`, `"ratio"`). -/
inductive DataTypeEnum where
  | nominal
  | ordinal
  | interval
  | ratio
deriving DecidableEq

/-- `metric.nominal_distance`: `float(0 if a == b else 1)`. -/
def nominal_distance (a b : ℚ) : EF := .fin (if a = b then 0 else 1)

/-- `metric.ordinal_distance` as invoked by the engine, where both arguments
are floats: nominal fallback when the scale is absent or either value is not
in it, otherwise the squared difference of 0-based scale positions. -/
def ordinal_distance (a b : ℚ) (scale : Option (List ℚ)) : EF :=
  match scale with
  | none => nominal_distance a b
  | some s =>
      if a ∉ s ∨ b ∉ s then nominal_distance a b
      else .fin ((((s.indexOf a : ℤ) - (s.indexOf b : ℤ)) ^ 2 : ℤ) : ℚ)

/-- `metric.interval_distance`: `(a - b) ** 2`. -/
def interval_distance (a b : ℚ) : EF := .fin ((a - b) ^ 2)

/-- `metric.ratio_distance`: `0.0` if both are zero; for `a + b == 0` with
`a != b` the Python code returns `float("inf")`; otherwise
`(a - b) ** 2 / (a + b)`. -/
def ratio_distance (a b : ℚ) : EF :=
  if a = 0 ∧ b = 0 then .fin 0
  else if a + b = 0 then (if a ≠ b then .inf else .fin 0)
  else .fin ((a - b) ^ 2 / (a + b))

/-- The `distance_fn` dispatch of `metric.krippendorff_alpha` (the
`if/elif` chain on `data_type`; for ordinal it is
`partial(ordinal_distance, scale=ordinal_scale)`). -/
def distanceFor (data_type : DataTypeEnum) (ordinal_scale : Option (List ℚ)) :
    ℚ → ℚ → EF :=
  match data_type with
  | .nominal => nominal_distance
  | .ordinal => fun a b => ordinal_distance a b ordinal_scale
  | .interval => interval_distance
  | .ratio => ratio_distance

/-- A cell of the reliability matrix: `none` is the NaN missing sentinel. -/
abbrev Cell := Option ℚ

/-- The reliability matrix as a row-major list of rows (a 2-D numpy array). -/
abbrev Mat := List (List Cell)

/-- `shape[1]` of a rectangular 2-D array: the length of the first row. -/
def numCols (m : Mat) : ℕ := (m.headD []).length

/-- The numpy column slice `m[:, j]`. -/
def colOf (m : Mat) (j : ℕ) : List Cell := m.map (fun r => r.getD j none)

/-- The sequence of columns `m[:, j]` for `j in range(shape[1])` — the order
in which `compute_observed_disagreement` visits the units. -/
def columnsOf (m : Mat) : List (List Cell) := (List.range (numCols m)).map (colOf m)

/-- `metric._calculate_unit_weight`: `0.0` for fewer than two coders,
otherwise `1.0 / (m_u - 1)`. -/
def calculate_unit_weight (m_u : ℕ) : ℚ :=
  if m_u < 2 then 0 else 1 / ((m_u : ℚ) - 1)

/-- The list `[i for i in range(n) if not np.isnan(values[i])]` of
`metric._process_unit_pairs`. -/
def nonNanIndices (vals : List Cell) : List ℕ :=
  (List.range vals.length).filter (fun i => (vals.getD i none).isSome)

/-- The value of a non-missing cell (`float(annotator_values[i])`; the `0`
default is never read because the callers index only non-NaN positions). -/
def valAt (vals : List Cell) (i : ℕ) : ℚ := ((vals.getD i none).getD 0)

/-- The iteration order of the double loop
`for idx_a, a in enumerate(non_nan_indices): for b in non_nan_indices[idx_a+1:]`:
every ordered pair of positions with the first strictly before the second. -/
def pairsOf : List ℕ → List (ℕ × ℕ)
  | [] => []
  | x :: xs => xs.map (fun y => (x, y)) ++ pairsOf xs

/-- The accumulator of `metric._process_unit_pairs`: the running weighted
unit disagreement and the per-category half-attribution and pair-count
dicts. -/
structure PairAcc where
  unit_disagreement : EF
  per_category_dis : List (ℤ × EF)
  pairwise_counts : List (ℤ × ℕ)
deriving DecidableEq

/-- One iteration of the pair loop of `metric._process_unit_pairs`:
`d = weight[a] * weight[b] * distance_fn(v_a, v_b)`,
`weighted_d = d * unit_weight` is added to the unit disagreement, and for
nominal/ordinal data half of `weighted_d` is attributed to each of the two
categories (sequentially, so a self-pair receives both halves) and each
category's pairwise count is incremented. -/
def pairStep (vals : List Cell) (weight_vector : List ℚ) (distance_fn : ℚ → ℚ → EF)
    (unit_weight : ℚ) (data_type : DataTypeEnum) (acc : PairAcc) (p : ℕ × ℕ) : PairAcc :=
  let d := ((EF.fin (weight_vector.getD p.1 0)).mul
              (EF.fin (weight_vector.getD p.2 0))).mul
            (distance_fn (valAt vals p.1) (valAt vals p.2))
  let weighted_d := d.mul (.fin unit_weight)
  let acc1 : PairAcc :=
    { acc with unit_disagreement := acc.unit_disagreement.add weighted_d }
  if data_type = .nominal ∨ data_type = .ordinal then
    let cat_a := truncToInt (valAt vals p.1)
    let cat_b := truncToInt (valAt vals p.2)
    let half := weighted_d.div (.fin SYMMETRIC_DISAGREEMENT_DIVISOR)
    let pc1 := dset acc1.per_category_dis cat_a
                ((dget acc1.per_category_dis cat_a (.fin 0)).add half)
    let pc2 := dset pc1 cat_b ((dget pc1 cat_b (.fin 0)).add half)
    let ct1 := dset acc1.pairwise_counts cat_a (dget acc1.pairwise_counts cat_a 0 + 1)
    let ct2 := dset ct1 cat_b (dget ct1 cat_b 0 + 1)
    { unit_disagreement := acc1.unit_disagreement
      per_category_dis := pc2
      pairwise_counts := ct2 }
  else acc1

/-- `metric._process_unit_pairs`: fold the pair loop over all in-order pairs
of non-missing positions of one unit. -/
def process_unit_pairs (annotator_values : List Cell) (weight_vector : List ℚ)
    (distance_fn : ℚ → ℚ → EF) (unit_weight : ℚ) (data_type : DataTypeEnum) : PairAcc :=
  (pairsOf (nonNanIndices annotator_values)).foldl
    (pairStep annotator_values weight_vector distance_fn unit_weight data_type)
    ⟨.fin 0, [], []⟩

/-- The accumulators of the unit loop of
`metric.compute_observed_disagreement`. -/
structure ObsAcc where
  observed_disagreement : EF
  per_category_obs_dis : List (ℤ × EF)
  pairwise_counts : List (ℤ × ℕ)
  total_pairable_values : ℕ
deriving DecidableEq

/-- Merging a unit's per-category dict into the global one:
`for cat, dis in unit_per_cat.items(): g[cat] = g.get(cat, 0.0) + dis`. -/
def mergeAddEF (g u : List (ℤ × EF)) : List (ℤ × EF) :=
  u.foldl (fun g kv => dset g kv.1 ((dget g kv.1 (.fin 0)).add kv.2)) g

/-- Merging a unit's pairwise-count dict into the global one. -/
def mergeAddNat (g u : List (ℤ × ℕ)) : List (ℤ × ℕ) :=
  u.foldl (fun g kv => dset g kv.1 (dget g kv.1 0 + kv.2)) g

/-- One iteration of the unit loop of `metric.compute_observed_disagreement`:
units with fewer than two non-missing values are skipped (`continue`);
otherwise the unit's pairable count is added to the denominator accumulator
and the `_process_unit_pairs` result is merged into the global accumulators. -/
def obsStep (weight_vector : List ℚ) (distance_fn : ℚ → ℚ → EF)
    (data_type : DataTypeEnum) (acc : ObsAcc) (annotator_values : List Cell) : ObsAcc :=
  let num_coders_per_unit := (nonNanIndices annotator_values).length
  if num_coders_per_unit < 2 then acc
  else
    let unit_weight := calculate_unit_weight num_coders_per_unit
    let pa := process_unit_pairs annotator_values weight_vector distance_fn
                unit_weight data_type
    { observed_disagreement := acc.observed_disagreement.add pa.unit_disagreement
      per_category_obs_dis := mergeAddEF acc.per_category_obs_dis pa.per_category_dis
      pairwise_counts := mergeAddNat acc.pairwise_counts pa.pairwise_counts
      total_pairable_values := acc.total_pairable_values + num_coders_per_unit }

/-- The unit loop of `metric.compute_observed_disagreement` folded over the
columns of the matrix (`for unit_idx in range(shape[1])`). -/
def obsUnitsFold (units : List (List Cell)) (weight_vector : List ℚ)
    (distance_fn : ℚ → ℚ → EF) (data_type : DataTypeEnum) : ObsAcc :=
  units.foldl (obsStep weight_vector distance_fn data_type) ⟨.fin 0, [], [], 0⟩

/-- `metric.compute_observed_disagreement`: the unit loop over the columns,
then division of the accumulated disagreement by the total number of
pairable values (or `0.0` when there are none).  Returns
`(observed_disagreement, per_category_obs_dis, pairwise_counts)`. -/
def compute_observed_disagreement (reliability_matrix : Mat) (weight_vector : List ℚ)
    (distance_fn : ℚ → ℚ → EF) (data_type : DataTypeEnum) :
    EF × List (ℤ × EF) × List (ℤ × ℕ) :=
  let acc := obsUnitsFold (columnsOf reliability_matrix) weight_vector distance_fn data_type
  let observed :=
    if 0 < acc.total_pairable_values then
      acc.observed_disagreement.div (.fin (acc.total_pairable_values : ℚ))
    else .fin 0
  (observed, acc.per_category_obs_dis, acc.pairwise_counts)

/-- The flattening `reliability_matrix[~np.isnan(reliability_matrix)]`:
all non-missing cells in row-major (C) order. -/
def flatNonMissing (m : Mat) : List ℚ := (m.map (fun r => r.filterMap id)).flatten

/-- Insertion step of an insertion sort on rationals (used to model the
sorted output of `np.unique`). -/
def insertSortedQ (x : ℚ) : List ℚ → List ℚ
  | [] => [x]
  | y :: ys => if y ≤ x then y :: insertSortedQ x ys else x :: y :: ys

/-- Insertion sort on rationals. -/
def insSortQ : List ℚ → List ℚ
  | [] => []
  | x :: xs => insertSortedQ x (insSortQ xs)

/-- Collapse adjacent duplicates of a (sorted) list. -/
def collapseDupsQ : List ℚ → List ℚ
  | [] => []
  | [x] => [x]
  | x :: y :: r => if x = y then collapseDupsQ (y :: r) else x :: collapseDupsQ (y :: r)

/-- `np.unique(values)`: the distinct values in increasing order. -/
def uniqueSorted (l : List ℚ) : List ℚ := collapseDupsQ (insSortQ l)

/-- `metric.compute_expected_disagreement`: category frequencies are taken
over all non-missing cells (keyed by `int(value)`, later keys overwriting
earlier ones on truncation collisions, as the dict comprehension does), then
a double loop over the sorted unique values accumulates
`distance(v1, v2) * freq[int(v1)] * freq[int(v2)]`, with half of every
contribution attributed to each category for nominal/ordinal data.
Returns `(expected_disagreement, per_category_exp_dis)`. -/
def compute_expected_disagreement (reliability_matrix : Mat)
    (distance_fn : ℚ → ℚ → EF) (data_type : DataTypeEnum) : EF × List (ℤ × EF) :=
  let non_nan_values := flatNonMissing reliability_matrix
  if non_nan_values.length = 0 then (.fin 0, [])
  else
    let unique_values := uniqueSorted non_nan_values
    let counts := unique_values.map (fun v => non_nan_values.count v)
    let total_values := counts.sum
    if total_values = 0 then (.fin 0, [])
    else
      let category_frequencies : List (ℤ × ℚ) :=
        (unique_values.zip counts).foldl
          (fun fm vc => dset fm (truncToInt vc.1) ((vc.2 : ℚ) / (total_values : ℚ))) []
      unique_values.foldl (fun st v1 =>
        unique_values.foldl (fun st v2 =>
          let distance := distance_fn v1 v2
          let prob_product :=
            dget category_frequencies (truncToInt v1) 0 *
              dget category_frequencies (truncToInt v2) 0
          let contribution := distance.mul (.fin prob_product)
          let st1 : EF × List (ℤ × EF) := (st.1.add contribution, st.2)
          if data_type = .nominal ∨ data_type = .ordinal then
            let half := contribution.div (.fin SYMMETRIC_DISAGREEMENT_DIVISOR)
            let pc1 := dset st1.2 (truncToInt v1)
                        ((dget st1.2 (truncToInt v1) (.fin 0)).add half)
            let pc2 := dset pc1 (truncToInt v2)
                        ((dget pc1 (truncToInt v2) (.fin 0)).add half)
            (st1.1, pc2)
          else st1) st)
        ((.fin 0 : EF), ([] : List (ℤ × EF)))

/-- A Python value as it appears around the label mappings: a number
(int or float, exact), a string label, or `numStr q` — the string rendering
`str(q)` of the number `q`.  `str` is injective on the canonical renderings
of distinct numbers, so equality of `numStr` values is equality of the
underlying numbers; a rendered number is modelled as never equal to an
ordinary label string (true unless a label is spelt exactly like a code). -/
inductive PVal where
  | num (q : ℚ)
  | str (s : String)
  | numStr (q : ℚ)
deriving DecidableEq

/-- The `isinstance(k, str)` test. -/
def PVal.isStr : PVal → Bool
  | .str _ => true
  | _ => false

/-- The `isinstance(v, (int, float))` test. -/
def PVal.isNum : PVal → Bool
  | .num _ => true
  | _ => false

/-- `metric.reverse_map`: with no mapping the value passes through; a
mapping whose entries are not all string-keyed with numeric values raises
`TypeError`; a numeric value is looked up in the reversed mapping (later
entries overwrite earlier ones, hence the reversed `find?`), a miss
returning `str(value)`; a non-numeric value passes through. -/
def reverse_map (value : PVal) (mapping : Option (List (PVal × PVal))) :
    Except String PVal :=
  match mapping with
  | none => .ok value
  | some mp =>
      if mp.all (fun kv => kv.1.isStr && kv.2.isNum) then
        match value with
        | .num q =>
            match mp.reverse.find? (fun kv => kv.2 = .num q) with
            | some kv => .ok kv.1
            | none => .ok (.numStr q)
        | v => .ok v
      else
        .error "Mapping dictionary must have string keys and numeric (int or float) values."

/-- The key under which `metric.compute_per_category_scores` stores a
category: `reverse_map(category_value, mapping) if mapping else
str(category_value)` — `None` and the empty dict are falsy.  (The
`complex` guard of the source is unrepresentable here, and its final
str/int normalisation of the key is the identity on these values.) -/
def perCatKey (v : ℚ) (mapping : Option (List (PVal × PVal))) : Except String PVal :=
  match mapping with
  | some (kv :: rest) => reverse_map (.num v) (some (kv :: rest))
  | _ => .ok (.numStr v)

/-- The loop body of `metric.compute_per_category_scores`, iterating the
sorted unique values: each category's reported observed score is its
attributed disagreement divided by
`max(pairwise_counts.get(int(c), 1), 1)`, and its expected score is read
off the per-category expected dict. -/
def perCatGo (per_category_obs_dis per_category_exp_dis : List (ℤ × EF))
    (pairwise_counts : List (ℤ × ℕ)) (mapping : Option (List (PVal × PVal))) :
    List ℚ → List (PVal × (EF × EF)) → Except String (List (PVal × (EF × EF)))
  | [], acc => .ok acc
  | v :: vs, acc =>
      match perCatKey v mapping with
      | .error e => .error e
      | .ok mapped_category =>
          let obsv := (dget per_category_obs_dis (truncToInt v) (.fin 0)).div
                        (.fin ((max (dget pairwise_counts (truncToInt v) 1) 1 : ℕ) : ℚ))
          let expv := dget per_category_exp_dis (truncToInt v) (.fin 0)
          perCatGo per_category_obs_dis per_category_exp_dis pairwise_counts mapping vs
            (dset acc mapped_category (obsv, expv))

/-- `metric.compute_per_category_scores`. -/
def compute_per_category_scores (unique_values : List ℚ)
    (per_category_obs_dis per_category_exp_dis : List (ℤ × EF))
    (pairwise_counts : List (ℤ × ℕ)) (mapping : Option (List (PVal × PVal))) :
    Except String (List (PVal × (EF × EF))) :=
  perCatGo per_category_obs_dis per_category_exp_dis pairwise_counts mapping
    unique_values []

/-- The result dictionary of `metric.krippendorff_alpha`:
`per_category_scores` is `None` (absent) for interval/ratio data. -/
structure AlphaResult where
  alpha : EF
  observed_disagreement : EF
  expected_disagreement : EF
  per_category_scores : Option (List (PVal × (EF × EF)))
deriving DecidableEq

/-- `metric.krippendorff_alpha`.  The matrix argument is the DataFrame's
numeric array (`df.to_numpy`); `weight_vector` stands for the output of
`compute_weight_vector(df, weight_dict)` (one weight per matrix row,
all `1.0` by default).  The source unpacks the shape as
`num_subjects, num_annotators = shape` and rejects matrices with fewer than
3 of either; it then dispatches the distance function on `data_type`,
computes observed and expected disagreement, always computes the
per-category scores (discarding them for interval/ratio output), and
combines `alpha = 1 - D_o/D_e if D_e > 0 else 1.0`, rounding every reported
number to `DEFAULT_DECIMAL_PLACES` places. -/
def krippendorff_alpha (df : Mat) (data_type : DataTypeEnum)
    (ordinal_scale : Option (List ℚ)) (mapping : Option (List (PVal × PVal)))
    (weight_vector : List ℚ) : Except String AlphaResult :=
  let num_subjects := df.length
  let num_annotators := numCols df
  if num_annotators < MIN_ANNOTATORS_REQUIRED ∨ num_subjects < MIN_SUBJECTS_REQUIRED then
    .error "Reliability matrix must have at least 3 annotators and 3 subjects."
  else
    let distance_fn := distanceFor data_type ordinal_scale
    let od := compute_observed_disagreement df weight_vector distance_fn data_type
    let ed := compute_expected_disagreement df distance_fn data_type
    let unique_values := uniqueSorted (flatNonMissing df)
    match compute_per_category_scores unique_values od.2.1 ed.2 od.2.2 mapping with
    | .error e => .error e
    | .ok per_category_scores =>
        let overall_alpha :=
          if ed.1.gtZero then (EF.fin 1).sub (od.1.div ed.1) else .fin 1
        .ok { alpha := overall_alpha.round3
              observed_disagreement := od.1.round3
              expected_disagreement := ed.1.round3
              per_category_scores :=
                if data_type = .nominal ∨ data_type = .ordinal then
                  some (per_category_scores.map
                    (fun kv => (kv.1, (kv.2.1.round3, kv.2.2.round3))))
                else none }

/-- A pandas DataFrame viewed column-wise: a list of named columns in
column order (each column one value per row/unit). -/
abbrev DataFrame := List (String × List Cell)

/-- Column selection `df[c]` (missing columns, a `KeyError` in pandas, read
as an empty column; the claims never select a missing column). -/
def dfColumn (df : DataFrame) (c : String) : List Cell :=
  match df.find? (fun col => col.1 = c) with
  | some col => col.2
  | none => []

/-- The number of rows of the DataFrame. -/
def dfNumRows (df : DataFrame) : ℕ := (df.headD ("", [])).2.length

/-- `reliability.compute_reliability_matrix`:
`np.asarray(df[annotator_cols].values)` — raising when the column mapping
has no annotator columns.  Row `j` of the result is unit `j`; entry `i` of
that row is the value of annotator column `annotator_cols[i]` at unit `j`. -/
def compute_reliability_matrix (df : DataFrame) (annotator_cols : List String) :
    Except String Mat :=
  if annotator_cols.isEmpty then
    .error "No annotator columns found in column mapping."
  else
    .ok ((List.range (dfNumRows df)).map (fun j =>
      annotator_cols.map (fun c => (dfColumn df c).getD j none)))

/-- `schema.ColumnMapping.validate_annotator_cols`: `None` passes through
for later inference; an explicit list of fewer than three columns raises.
(The `isinstance(v, list)` guard is enforced by the type here.) -/
def validate_annotator_cols (v : Option (List String)) :
    Except String (Option (List String)) :=
  match v with
  | none => .ok none
  | some cols =>
      if cols.length < 3 then
        .error "At least three annotator columns are required for reliability assessment."
      else .ok (some cols)

/-- Python string comparison `a < b` (lexicographic on code points). -/
def charListLt : List Char → List Char → Bool
  | [], [] => false
  | [], _ :: _ => true
  | _ :: _, [] => false
  | a :: as, b :: bs => a < b || (a == b && charListLt as bs)

/-- Python string comparison `a < b` on `String`. -/
def strLt (a b : String) : Bool := charListLt a.data b.data

/-- Insertion step of an insertion sort on strings. -/
def insertSortedStr (x : String) : List String → List String
  | [] => [x]
  | y :: ys => if strLt y x then y :: insertSortedStr x ys else x :: y :: ys

/-- Insertion sort on strings (models Python `sorted` on a label set). -/
def insSortStr : List String → List String
  | [] => []
  | x :: xs => insertSortedStr x (insSortStr xs)

/-- Collapse adjacent duplicates of a (sorted) list of strings. -/
def collapseDupsStr : List String → List String
  | [] => []
  | [x] => [x]
  | x :: y :: r =>
      if x = y then collapseDupsStr (y :: r) else x :: collapseDupsStr (y :: r)

/-- Python `sorted(set(l))` for strings: distinct labels in increasing
order. -/
def sortedDistinct (l : List String) : List String := collapseDupsStr (insSortStr l)

/-- Python `enumerate` paired as `(item, index)`. -/
def enumerateFrom (i : ℕ) : List String → List (String × ℕ)
  | [] => []
  | x :: xs => (x, i) :: enumerateFrom (i + 1) xs

/-- The label mapping that `preprocessing.convert_nominal_to_numeric` builds
for ONE column on a fresh call (`col_name not in nominal_mappings`):
`{label: i for i, label in enumerate(sorted(set(column.dropna().unique())))}`.
The mapping is keyed only by this column's own labels. -/
def convert_nominal_to_numeric_mapping (column : List (Option String)) :
    List (String × ℕ) :=
  enumerateFrom 0 (sortedDistinct (column.filterMap id))

/-- The coded column that `preprocessing.convert_nominal_to_numeric`
returns: `column.map(mapping).fillna(-1).astype(int)` — labels map through
the per-column mapping, missing cells (and labels absent from the mapping)
become `-1`. -/
def convert_nominal_to_numeric (column : List (Option String)) : List ℤ :=
  column.map (fun c =>
    match c with
    | some lab =>
        match (convert_nominal_to_numeric_mapping column).find? (fun kv => kv.1 = lab) with
        | some kv => (kv.2 : ℤ)
        | none => -1
    | none => -1)

/-- The union label mapping of `data_handler.process_dataframe` for
nominal/ordinal data: one mapping built from the sorted set of all string
labels observed in ANY annotator column,
`{label: idx for idx, label in enumerate(unique_labels)}`. -/
def unionLabelMapping (columns : List (List (Option String))) : List (String × ℕ) :=
  enumerateFrom 0 (sortedDistinct ((columns.map (fun col => col.filterMap id)).flatten))

/-- The reverse mapping `value_to_label = {v: k for k, v in label_mapping}`
of `data_handler.process_dataframe`. -/
def valueToLabel (m : List (String × ℕ)) : List (ℕ × String) :=
  m.map (fun kv => (kv.2, kv.1))

/-- Forward lookup of a label in an association mapping. -/
def lookupLabel (m : List (String × ℕ)) (lab : String) : Option ℕ :=
  match m.find? (fun kv => kv.1 = lab) with
  | some kv => some kv.2
  | none => none

/-- Reverse lookup of a code in the reversed mapping. -/
def lookupCode (m : List (ℕ × String)) (code : ℕ) : Option String :=
  match m.find? (fun kv => kv.1 = code) with
  | some kv => some kv.2
  | none => none

/-- Sum of a list of float values, in order. -/
def sumEF (l : List EF) : EF := l.foldr EF.add (.fin 0)

/-- Sum of the values of a dict. -/
def dictSumEF (d : List (ℤ × EF)) : EF := sumEF (d.map Prod.snd)

/-- The keys of a dict. -/
def keysOf {κ α : Type} (d : List (κ × α)) : List κ := d.map Prod.fst

/-- A float that is a non-negative finite value. -/
def EF.finNonneg (x : EF) : Prop := ∃ q : ℚ, x = .fin q ∧ 0 ≤ q

@[simp] theorem EF.add_fin_fin (a b : ℚ) : (EF.fin a).add (.fin b) = .fin (a + b) := rfl

@[simp] theorem EF.mul_fin_fin (a b : ℚ) : (EF.fin a).mul (.fin b) = .fin (a * b) := rfl

@[simp] theorem EF.sub_fin_fin (a b : ℚ) : (EF.fin a).sub (.fin b) = .fin (a - b) := by
  show EF.fin (a + -b) = EF.fin (a - b)
  ring_nf

theorem EF.div_fin_fin (a b : ℚ) (hb : b ≠ 0) :
    (EF.fin a).div (.fin b) = .fin (a / b) := by
  simp [EF.div, hb]

theorem EF.zero_add (x : EF) : (EF.fin 0).add x = x := by
  cases x <;> simp [EF.add]

theorem EF.add_zero (x : EF) : x.add (EF.fin 0) = x := by
  cases x <;> simp [EF.add]

theorem EF.add_comm (x y : EF) : x.add y = y.add x := by
  cases x <;> cases y <;> simp [EF.add] <;> ring

theorem EF.add_assoc (x y z : EF) : (x.add y).add z = x.add (y.add z) := by
  cases x <;> cases y <;> cases z <;> simp [EF.add] <;> ring

/-- Adding half of a value twice gives back the value, also for the
non-finite values. -/
theorem EF.half_add_half (x : EF) :
    (x.div (.fin 2)).add (x.div (.fin 2)) = x := by
  cases x <;> simp [EF.div, EF.add] <;> ring

/-- Dividing by a positive count and multiplying back is the identity, also
for the non-finite values. -/
theorem EF.div_mul_cancel (x : EF) (c : ℚ) (hc : 0 < c) :
    (x.div (.fin c)).mul (.fin c) = x := by
  cases x <;> simp [EF.div, EF.mul, hc.ne', hc, hc.le, not_lt.2 hc.le] <;>
    field_simp

theorem EF.finNonneg_fin {q : ℚ} (h : 0 ≤ q) : (EF.fin q).finNonneg := ⟨q, rfl, h⟩

theorem EF.finNonneg_add {x y : EF} (hx : x.finNonneg) (hy : y.finNonneg) :
    (x.add y).finNonneg := by
  obtain ⟨a, rfl, ha⟩ := hx
  obtain ⟨b, rfl, hb⟩ := hy
  exact ⟨a + b, rfl, by positivity⟩

theorem EF.finNonneg_mul {x y : EF} (hx : x.finNonneg) (hy : y.finNonneg) :
    (x.mul y).finNonneg := by
  obtain ⟨a, rfl, ha⟩ := hx
  obtain ⟨b, rfl, hb⟩ := hy
  exact ⟨a * b, rfl, by positivity⟩

theorem EF.finNonneg_div_pos {x : EF} (hx : x.finNonneg) {c : ℚ} (hc : 0 < c) :
    (x.div (.fin c)).finNonneg := by
  obtain ⟨a, rfl, ha⟩ := hx
  exact ⟨a / c, by simp [EF.div_fin_fin _ _ hc.ne'], by positivity⟩

/-- Round-half-even of an integer is that integer. -/
theorem roundHE_intCast (n : ℤ) : roundHE (n : ℚ) = n := by
  simp [roundHE]

/-- Round-half-even never exceeds an integer bound of its argument. -/
theorem roundHE_le {x : ℚ} {n : ℤ} (h : x ≤ (n : ℚ)) : roundHE x ≤ n := by
  have hfl : ⌊x⌋ ≤ n := by
    have := Int.floor_le_floor h
    simpa using this
  by_cases h1 : x - (⌊x⌋ : ℚ) < 1/2
  · rw [roundHE, if_pos h1]
    exact hfl
  · by_cases h2 : (1 : ℚ)/2 < x - (⌊x⌋ : ℚ)
    · rw [roundHE, if_neg h1, if_pos h2]
      rcases lt_or_eq_of_le hfl with h3 | h3
      · omega
      · exfalso
        have hgt : (n : ℚ) + 1/2 < x := by
          rw [← h3]
          push_cast
          linarith
        linarith
    · rw [roundHE, if_neg h1, if_neg h2]
      have heq : x - (⌊x⌋ : ℚ) = 1/2 := le_antisymm (not_lt.1 h2) (not_lt.1 h1)
      rcases lt_or_eq_of_le hfl with h3 | h3
      · split <;> omega
      · exfalso
        have hx : x = (n : ℚ) + 1/2 := by
          rw [← h3]
          push_cast
          linarith
        rw [hx] at h
        norm_num at h

theorem round3q_le_one {q : ℚ} (h : q ≤ 1) : round3q q ≤ 1 := by
  have hle : q * 10 ^ DEFAULT_DECIMAL_PLACES ≤ ((10 ^ DEFAULT_DECIMAL_PLACES : ℤ) : ℚ) := by
    push_cast
    nlinarith [pow_pos (show (0:ℚ) < 10 by norm_num) DEFAULT_DECIMAL_PLACES]
  have := roundHE_le hle
  rw [round3q, div_le_one (by positivity)]
  exact_mod_cast this

theorem round3q_one : round3q 1 = 1 := by
  norm_num [round3q, roundHE, DEFAULT_DECIMAL_PLACES]

theorem round3q_zero : round3q 0 = 0 := by
  norm_num [round3q, roundHE, DEFAULT_DECIMAL_PLACES]

theorem dget_nil {κ α : Type} [DecidableEq κ] (k : κ) (dflt : α) :
    dget ([] : List (κ × α)) k dflt = dflt := rfl

theorem dget_cons {κ α : Type} [DecidableEq κ] (kv : κ × α) (d : List (κ × α))
    (k : κ) (dflt : α) :
    dget (kv :: d) k dflt = if kv.1 = k then kv.2 else dget d k dflt := by
  by_cases h : kv.1 = k <;> simp [dget, List.find?, h]

theorem dset_nil {κ α : Type} [DecidableEq κ] (k : κ) (v : α) :
    dset ([] : List (κ × α)) k v = [(k, v)] := rfl

theorem dset_cons {κ α : Type} [DecidableEq κ] (kv : κ × α) (d : List (κ × α))
    (k : κ) (v : α) :
    dset (kv :: d) k v = if kv.1 = k then (k, v) :: d else kv :: dset d k v := rfl

theorem dget_of_not_mem_keys {κ α : Type} [DecidableEq κ] {d : List (κ × α)} {k : κ}
    (h : k ∉ keysOf d) (dflt : α) : dget d k dflt = dflt := by
  induction d with
  | nil => rfl
  | cons kv rest ih =>
      rw [dget_cons]
      simp only [keysOf, List.map_cons, List.mem_cons] at h
      push_neg at h
      rw [if_neg (fun he => h.1 he.symm), ih (by simpa [keysOf] using h.2)]

theorem mem_keys_dset {κ α : Type} [DecidableEq κ] {d : List (κ × α)} {k k' : κ} {v : α}
    (h : k' ∈ keysOf (dset d k v)) : k' = k ∨ k' ∈ keysOf d := by
  induction d with
  | nil => simpa [dset_nil, keysOf] using h
  | cons kv rest ih =>
      rw [dset_cons] at h
      by_cases hk : kv.1 = k
      · rw [if_pos hk] at h
        simp only [keysOf, List.map_cons, List.mem_cons] at h ⊢
        tauto
      · rw [if_neg hk] at h
        simp only [keysOf, List.map_cons, List.mem_cons] at h ⊢
        rcases h with h | h
        · tauto
        · rcases ih h with h' | h' <;> tauto

theorem keys_nodup_dset {κ α : Type} [DecidableEq κ] {d : List (κ × α)} {k : κ} {v : α}
    (h : (keysOf d).Nodup) : (keysOf (dset d k v)).Nodup := by
  induction d with
  | nil => simp [dset_nil, keysOf]
  | cons kv rest ih =>
      simp only [keysOf, List.map_cons, List.nodup_cons] at h
      rw [dset_cons]
      by_cases hk : kv.1 = k
      · rw [if_pos hk]
        simp only [keysOf, List.map_cons, List.nodup_cons]
        exact ⟨by simpa [keysOf, hk] using h.1, h.2⟩
      · rw [if_neg hk]
        simp only [keysOf, List.map_cons, List.nodup_cons]
        refine ⟨fun hmem => ?_, ih h.2⟩
        rcases mem_keys_dset hmem with h' | h'
        · exact hk h'
        · exact h.1 h'

theorem dictSumEF_nil : dictSumEF [] = .fin 0 := rfl

theorem dictSumEF_cons (kv : ℤ × EF) (d : List (ℤ × EF)) :
    dictSumEF (kv :: d) = kv.2.add (dictSumEF d) := rfl

/-- The dict update `d[k] = d.get(k, 0.0) + h` raises the sum of the dict's
values by exactly `h`. -/
theorem dictSumEF_dset_add (d : List (ℤ × EF)) (k : ℤ) (h : EF) :
    dictSumEF (dset d k ((dget d k (.fin 0)).add h)) = (dictSumEF d).add h := by
  induction d with
  | nil =>
      simp [dset_nil, dget_nil, dictSumEF, sumEF, EF.zero_add, EF.add_zero]
  | cons kv rest ih =>
      rw [dget_cons, dset_cons]
      by_cases hk : kv.1 = k
      · rw [if_pos hk, if_pos hk, dictSumEF_cons, dictSumEF_cons]
        show (kv.2.add h).add (dictSumEF rest) = (kv.2.add (dictSumEF rest)).add h
        rw [EF.add_assoc, EF.add_assoc, EF.add_comm h]
      · rw [if_neg hk, if_neg hk, dictSumEF_cons, dictSumEF_cons, ih]
        rw [← EF.add_assoc]

theorem mergeAddEF_nil (g : List (ℤ × EF)) : mergeAddEF g [] = g := rfl

theorem mergeAddEF_cons (g : List (ℤ × EF)) (kv : ℤ × EF) (u : List (ℤ × EF)) :
    mergeAddEF g (kv :: u) = mergeAddEF (dset g kv.1 ((dget g kv.1 (.fin 0)).add kv.2)) u := rfl

/-- Merging one dict into another adds their value sums. -/
theorem dictSumEF_mergeAddEF (g u : List (ℤ × EF)) :
    dictSumEF (mergeAddEF g u) = (dictSumEF g).add (dictSumEF u) := by
  induction u generalizing g with
  | nil => rw [mergeAddEF_nil, dictSumEF_nil, EF.add_zero]
  | cons kv rest ih =>
      rw [mergeAddEF_cons, ih, dictSumEF_dset_add, dictSumEF_cons, EF.add_assoc]

theorem mem_keys_mergeAddEF {g u : List (ℤ × EF)} {k : ℤ}
    (h : k ∈ keysOf (mergeAddEF g u)) : k ∈ keysOf g ∨ k ∈ keysOf u := by
  induction u generalizing g with
  | nil => exact Or.inl (by simpa [mergeAddEF_nil] using h)
  | cons kv rest ih =>
      rw [mergeAddEF_cons] at h
      rcases ih h with h' | h'
      · rcases mem_keys_dset h' with h'' | h''
        · exact Or.inr (by simp [keysOf, h''])
        · exact Or.inl h''
      · refine Or.inr ?_
        simp only [keysOf, List.map_cons, List.mem_cons]
        exact Or.inr (by simpa [keysOf] using h')

theorem keys_nodup_mergeAddEF {g : List (ℤ × EF)} (u : List (ℤ × EF))
    (h : (keysOf g).Nodup) : (keysOf (mergeAddEF g u)).Nodup := by
  induction u generalizing g with
  | nil => simpa [mergeAddEF_nil] using h
  | cons kv rest ih => exact ih (keys_nodup_dset h)

/-- Removing every entry of one key from a dict. -/
def dErase {κ α : Type} [DecidableEq κ] : List (κ × α) → κ → List (κ × α)
  | [], _ => []
  | kv :: rest, k => if kv.1 = k then dErase rest k else kv :: dErase rest k

theorem dget_dErase_ne {κ α : Type} [DecidableEq κ] (d : List (κ × α)) {k k' : κ}
    (h : k' ≠ k) (dflt : α) : dget (dErase d k) k' dflt = dget d k' dflt := by
  induction d with
  | nil => rfl
  | cons kv rest ih =>
      rw [dErase]
      by_cases hk : kv.1 = k
      · rw [if_pos hk, dget_cons, if_neg (by rw [hk]; exact fun he => h he.symm), ih]
      · rw [if_neg hk, dget_cons, dget_cons]
        by_cases hkk : kv.1 = k'
        · rw [if_pos hkk, if_pos hkk]
        · rw [if_neg hkk, if_neg hkk, ih]

theorem mem_keys_dErase {κ α : Type} [DecidableEq κ] {d : List (κ × α)} {k k' : κ}
    (h : k' ∈ keysOf (dErase d k)) : k' ∈ keysOf d ∧ k' ≠ k := by
  induction d with
  | nil => simpa [dErase, keysOf] using h
  | cons kv rest ih =>
      rw [dErase] at h
      by_cases hk : kv.1 = k
      · rw [if_pos hk] at h
        have := ih h
        exact ⟨by simp only [keysOf, List.map_cons, List.mem_cons]; exact Or.inr this.1,
          this.2⟩
      · rw [if_neg hk] at h
        simp only [keysOf, List.map_cons, List.mem_cons] at h ⊢
        rcases h with h | h
        · exact ⟨Or.inl h, by rw [h]; exact hk⟩
        · have := ih h
          exact ⟨Or.inr this.1, this.2⟩

theorem dErase_of_not_mem {κ α : Type} [DecidableEq κ] {d : List (κ × α)} {k : κ}
    (h : k ∉ keysOf d) : dErase d k = d := by
  induction d with
  | nil => rfl
  | cons kv rest ih =>
      simp only [keysOf, List.map_cons, List.mem_cons] at h
      push_neg at h
      rw [dErase, if_neg (fun he => h.1 he.symm), ih (by simpa [keysOf] using h.2)]

theorem keys_nodup_dErase {κ α : Type} [DecidableEq κ] {d : List (κ × α)} (k : κ)
    (h : (keysOf d).Nodup) : (keysOf (dErase d k)).Nodup := by
  induction d with
  | nil => simp [dErase, keysOf]
  | cons kv rest ih =>
      simp only [keysOf, List.map_cons, List.nodup_cons] at h
      rw [dErase]
      by_cases hk : kv.1 = k
      · rw [if_pos hk]
        exact ih h.2
      · rw [if_neg hk]
        simp only [keysOf, List.map_cons, List.nodup_cons]
        exact ⟨fun hmem => h.1 (mem_keys_dErase hmem).1, ih h.2⟩

/-- Splitting off one key's value from the sum of a dict with distinct
keys. -/
theorem dictSumEF_split (d : List (ℤ × EF)) (k : ℤ) (hnd : (keysOf d).Nodup) :
    dictSumEF d = (dget d k (.fin 0)).add (dictSumEF (dErase d k)) := by
  induction d with
  | nil => simp [dictSumEF_nil, dget_nil, dErase, EF.zero_add]
  | cons kv rest ih =>
      simp only [keysOf, List.map_cons, List.nodup_cons] at hnd
      rw [dget_cons, dErase]
      by_cases hk : kv.1 = k
      · rw [if_pos hk, if_pos hk, dictSumEF_cons]
        rw [dErase_of_not_mem (by rw [← hk]; exact hnd.1)]
      · rw [if_neg hk, if_neg hk, dictSumEF_cons, dictSumEF_cons, ih hnd.2]
        rw [← EF.add_assoc, ← EF.add_assoc, EF.add_comm kv.2]

/-- Summing the looked-up value of every key of a covering distinct key list
recovers the dict's value sum. -/
theorem sumEF_dget_eq_dictSumEF (us : List ℤ) (d : List (ℤ × EF))
    (hus : us.Nodup) (hnd : (keysOf d).Nodup) (hcov : ∀ k ∈ keysOf d, k ∈ us) :
    sumEF (us.map (fun u => dget d u (.fin 0))) = dictSumEF d := by
  induction us generalizing d with
  | nil =>
      have : d = [] := by
        cases d with
        | nil => rfl
        | cons kv rest => exact absurd (hcov kv.1 (by simp [keysOf])) (by simp)
      simp [this, dictSumEF_nil, sumEF]
  | cons u us' ih =>
      simp only [List.nodup_cons] at hus
      have hrw : us'.map (fun x => dget d x (.fin 0)) =
          us'.map (fun x => dget (dErase d u) x (.fin 0)) := by
        refine List.map_congr_left (fun x hx => ?_)
        exact (dget_dErase_ne d (fun he => hus.1 (by rw [← he]; exact hx)) (.fin 0)).symm
      rw [List.map_cons]
      show (dget d u (.fin 0)).add (sumEF (us'.map fun x => dget d x (.fin 0))) = dictSumEF d
      rw [hrw, ih (dErase d u) hus.2 (keys_nodup_dErase u hnd) (fun k hk => ?_)]
      · exact (dictSumEF_split d u hnd).symm
      · have := mem_keys_dErase hk
        rcases List.mem_cons.1 (hcov k this.1) with h | h
        · exact absurd h this.2
        · exact h

/-- C7: every input whose matrix has fewer than 3 annotators or fewer than
3 units is rejected by `krippendorff_alpha` with a descriptive `ValueError`
before any disagreement computation (the shape guard is the first statement
after the conversion to an array, and an error means no result is
produced); and `ColumnMapping.validate_annotator_cols` rejects an explicit
list of fewer than 3 annotator columns with a descriptive error. -/
theorem C7_min_shape_rejected :
    (∀ (df : Mat) (dt : DataTypeEnum) (scale : Option (List ℚ))
        (mapping : Option (List (PVal × PVal))) (w : List ℚ),
      numCols df < 3 ∨ df.length < 3 →
      krippendorff_alpha df dt scale mapping w =
        .error "Reliability matrix must have at least 3 annotators and 3 subjects.") ∧
    (∀ cols : List String, cols.length < 3 →
      validate_annotator_cols (some cols) =
        .error "At least three annotator columns are required for reliability assessment.") := by
  constructor
  · intro df dt scale mapping w h
    simp only [krippendorff_alpha]
    rw [if_pos (by simpa [MIN_ANNOTATORS_REQUIRED, MIN_SUBJECTS_REQUIRED] using h)]
  · intro cols h
    simp only [validate_annotator_cols]
    rw [if_pos h]

/-- C7 witness: a 2-row (2-annotator) matrix and a 2-element column list
are both rejected with the errors of the claim theorem. -/
theorem C7_min_shape_rejected_witness :
    ((numCols [[some 1, some 2, some 3], [some (2:ℚ), some 3, some 1]] < 3 ∨
        ([[some 1, some 2, some 3], [some (2:ℚ), some 3, some 1]] : Mat).length < 3) ∧
      krippendorff_alpha [[some 1, some 2, some 3], [some (2:ℚ), some 3, some 1]]
        .nominal none none [1, 1] =
        .error "Reliability matrix must have at least 3 annotators and 3 subjects.") ∧
    ((["a", "b"] : List String).length < 3 ∧
      validate_annotator_cols (some ["a", "b"]) =
        .error "At least three annotator columns are required for reliability assessment.") := by
  have h1 : numCols [[some 1, some 2, some 3], [some (2:ℚ), some 3, some 1]] < 3 ∨
      ([[some 1, some 2, some 3], [some (2:ℚ), some 3, some 1]] : Mat).length < 3 := by
    right
    simp
  have h2 : (["a", "b"] : List String).length < 3 := by simp
  exact ⟨⟨h1, C7_min_shape_rejected.1 _ .nominal none none [1, 1] h1⟩,
    ⟨h2, C7_min_shape_rejected.2 ["a", "b"] h2⟩⟩

/-- C3: whenever `krippendorff_alpha` returns a result, the reported
observed and expected disagreements are the engine's values rounded to
`DEFAULT_DECIMAL_PLACES = 3` decimal places, the reported alpha is
`round(1 - D_o/D_e, 3)` whenever `D_e > 0`, and when `D_e` is zero the
reported alpha is exactly `1.0` (returned, not raised). -/
theorem C3_aggregator_formula (df : Mat) (dt : DataTypeEnum) (scale : Option (List ℚ))
    (mapping : Option (List (PVal × PVal))) (w : List ℚ) (r : AlphaResult)
    (hok : krippendorff_alpha df dt scale mapping w = .ok r) :
    r.observed_disagreement =
      (compute_observed_disagreement df w (distanceFor dt scale) dt).1.round3 ∧
    r.expected_disagreement =
      (compute_expected_disagreement df (distanceFor dt scale) dt).1.round3 ∧
    ((compute_expected_disagreement df (distanceFor dt scale) dt).1.gtZero = true →
      r.alpha = ((EF.fin 1).sub
        ((compute_observed_disagreement df w (distanceFor dt scale) dt).1.div
          (compute_expected_disagreement df (distanceFor dt scale) dt).1)).round3) ∧
    ((compute_expected_disagreement df (distanceFor dt scale) dt).1 = .fin 0 →
      r.alpha = .fin 1) := by
  by_cases hshape : numCols df < MIN_ANNOTATORS_REQUIRED ∨ df.length < MIN_SUBJECTS_REQUIRED
  · simp only [krippendorff_alpha] at hok
    rw [if_pos hshape] at hok
    exact absurd hok (by simp)
  · simp only [krippendorff_alpha] at hok
    rw [if_neg hshape] at hok
    rcases hmatch : compute_per_category_scores (uniqueSorted (flatNonMissing df))
        (compute_observed_disagreement df w (distanceFor dt scale) dt).2.1
        (compute_expected_disagreement df (distanceFor dt scale) dt).2
        (compute_observed_disagreement df w (distanceFor dt scale) dt).2.2 mapping
      with e | scores
    · rw [hmatch] at hok
      exact absurd hok (by simp)
    · rw [hmatch] at hok
      simp only [Except.ok.injEq] at hok
      subst hok
      refine ⟨rfl, rfl, fun hpos => ?_, fun hzero => ?_⟩
      · show (if (compute_expected_disagreement df (distanceFor dt scale) dt).1.gtZero
            then (EF.fin 1).sub _ else .fin 1).round3 = _
        rw [if_pos hpos]
      · show (if (compute_expected_disagreement df (distanceFor dt scale) dt).1.gtZero
            then (EF.fin 1).sub _ else .fin 1).round3 = .fin 1
        rw [hzero]
        show (if EF.gtZero (.fin 0) then _ else EF.fin 1).round3 = .fin 1
        rw [if_neg (by simp [EF.gtZero])]
        show EF.fin (round3q 1) = EF.fin 1
        rw [round3q_one]

/-- C9 (amended): the ratio-distance singularity `a + b == 0`, `a != b` is
resolved by the single consistent policy of returning `float("inf")`. -/
theorem C9_ratio_singularity_policy (a b : ℚ) (hsum : a + b = 0) (hne : a ≠ b) :
    ratio_distance a b = .inf := by
  have hnotboth : ¬ (a = 0 ∧ b = 0) := fun ⟨ha, hb⟩ => hne (ha.trans hb.symm)
  rw [ratio_distance, if_neg hnotboth, if_pos hsum, if_pos hne]

/-- C9 witness: the singular pair `(1, -1)` gets distance `+inf`. -/
theorem C9_ratio_singularity_policy_witness :
    (1 + (-1) : ℚ) = 0 ∧ (1 : ℚ) ≠ -1 ∧ ratio_distance 1 (-1) = .inf := by
  refine ⟨by norm_num, by norm_num, ?_⟩
  exact C9_ratio_singularity_policy 1 (-1) (by norm_num) (by norm_num)

/-- C8 (amended): `reverse_map` raises a fatal `TypeError` whenever the
mapping has any entry that is not a string key with a numeric value; but a
reverse-lookup miss is NOT fatal — for a numeric value absent from the
well-formed mapping's values it silently returns the substitute
`str(value)`. -/
theorem C8_reverse_map_errors (mp : List (PVal × PVal)) (value : PVal) (q : ℚ) :
    ((∃ kv ∈ mp, ¬ (kv.1.isStr = true ∧ kv.2.isNum = true)) →
      reverse_map value (some mp) =
        .error "Mapping dictionary must have string keys and numeric (int or float) values.") ∧
    ((∀ kv ∈ mp, kv.1.isStr = true ∧ kv.2.isNum = true) →
      (∀ kv ∈ mp, kv.2 ≠ .num q) →
      reverse_map (.num q) (some mp) = .ok (.numStr q)) := by
  constructor
  · intro hbad
    have hall : ¬ (mp.all (fun kv => kv.1.isStr && kv.2.isNum) = true) := by
      rw [List.all_eq_true]
      push_neg
      obtain ⟨kv, hmem, hkv⟩ := hbad
      exact ⟨kv, hmem, by simpa [Bool.and_eq_true] using hkv⟩
    simp only [reverse_map]
    rw [if_neg hall]
  · intro hgood hmiss
    have hall : mp.all (fun kv => kv.1.isStr && kv.2.isNum) = true := by
      rw [List.all_eq_true]
      intro kv hmem
      simpa [Bool.and_eq_true] using hgood kv hmem
    have hfind : mp.reverse.find? (fun kv => kv.2 = .num q) = none := by
      rw [List.find?_eq_none]
      intro kv hmem
      simpa using hmiss kv (List.mem_reverse.1 hmem)
    simp only [reverse_map]
    rw [if_pos hall, hfind]

/-- C8 counterexample to the claim as stated: a reverse-lookup miss (value
`5` against a mapping whose only code is `3`) does not raise; it silently
returns the substitute string `str(5)`. -/
theorem C8_reverse_map_counterexample :
    reverse_map (.num 5) (some [(.str "a", .num 3)]) = .ok (.numStr 5) := by
  norm_num [reverse_map, PVal.isStr, PVal.isNum, List.find?]

/-- C8 witness: a string-keyed mapping with a string value raises the
`TypeError`, and a well-formed mapping misses on code `5` and substitutes
`str(5)`. -/
theorem C8_reverse_map_errors_witness :
    reverse_map (.num 2) (some [(.str "a", .str "b")]) =
      .error "Mapping dictionary must have string keys and numeric (int or float) values." ∧
    reverse_map (.num 5) (some [(.str "a", .num 3), (.str "c", .num 4)]) =
      .ok (.numStr 5) := by
  constructor
  · exact (C8_reverse_map_errors [(.str "a", .str "b")] (.num 2) 2).1
      ⟨(.str "a", .str "b"), by simp, by simp [PVal.isNum]⟩
  · refine (C8_reverse_map_errors [(.str "a", .num 3), (.str "c", .num 4)] (.num 5) 5).2
      (fun kv hmem => ?_) (fun kv hmem => ?_) <;>
      simp only [List.mem_cons, List.not_mem_nil, or_false] at hmem
    · rcases hmem with rfl | rfl <;> exact ⟨rfl, rfl⟩
    · rcases hmem with rfl | rfl <;>
        (intro he; rw [PVal.num.injEq] at he; norm_num at he)

theorem getD_map_of_lt {α β : Type} (l : List α) (f : α → β) (i : ℕ) (d : β) (d' : α)
    (hi : i < l.length) : (l.map f).getD i d = f (l.getD i d') := by
  induction l generalizing i with
  | nil => simp at hi
  | cons x xs ih =>
      cases i with
      | zero => rfl
      | succ n =>
          simp only [List.map_cons, List.getD_cons_succ]
          exact ih n (by simpa using hi)

theorem getD_range_of_lt {n i : ℕ} (hi : i < n) (d : ℕ) :
    (List.range n).getD i d = i := by
  rw [List.getD_eq_getElem?_getD, List.getElem?_range hi]
  rfl

theorem headD_eq_getD_zero {α : Type} (l : List α) (d : α) : l.headD d = l.getD 0 d := by
  cases l <;> rfl

/-- C5 (amended): the matrix built by `compute_reliability_matrix` has axis
order (unit, annotator) — entry `(j, i)` is the value of annotator column
`i` at unit (row) `j` — while the disagreement engine indexes its input as
(annotator, unit): the `i`-th "unit" column it visits over this matrix is
exactly annotator `i`'s whole value series, so a caller must transpose to
give the engine the orientation it expects. -/
theorem C5_builder_axis_order (df : DataFrame) (annotator_cols : List String) (M : Mat)
    (hok : compute_reliability_matrix df annotator_cols = .ok M) :
    (∀ j i, j < dfNumRows df → i < annotator_cols.length →
      (M.getD j []).getD i none = (dfColumn df (annotator_cols.getD i "")).getD j none) ∧
    (dfNumRows df ≠ 0 → ∀ i, i < annotator_cols.length →
      (columnsOf M).getD i [] = (List.range (dfNumRows df)).map
        (fun j => (dfColumn df (annotator_cols.getD i "")).getD j none)) := by
  by_cases hne : annotator_cols.isEmpty
  · rw [compute_reliability_matrix, if_pos hne] at hok
    exact absurd hok (by simp)
  · rw [compute_reliability_matrix, if_neg hne] at hok
    simp only [Except.ok.injEq] at hok
    subst hok
    have hrow : ∀ j, j < dfNumRows df →
        (((List.range (dfNumRows df)).map (fun j =>
          annotator_cols.map (fun c => (dfColumn df c).getD j none))).getD j []) =
        annotator_cols.map (fun c => (dfColumn df c).getD j none) := by
      intro j hj
      rw [getD_map_of_lt _ _ _ _ 0 (by simpa using hj), getD_range_of_lt hj]
    constructor
    · intro j i hj hi
      rw [hrow j hj, getD_map_of_lt _ _ _ _ "" hi]
    · intro hn i hi
      have hlen : numCols ((List.range (dfNumRows df)).map (fun j =>
          annotator_cols.map (fun c => (dfColumn df c).getD j none))) =
          annotator_cols.length := by
        rw [numCols, headD_eq_getD_zero, hrow 0 (Nat.pos_of_ne_zero hn)]
        simp
      rw [columnsOf, hlen, getD_map_of_lt _ _ _ _ 0 (by simpa using hi),
        getD_range_of_lt hi]
      rw [colOf, List.map_map]
      refine List.map_congr_left (fun j hj => ?_)
      simp only [Function.comp_apply]
      rw [getD_map_of_lt _ _ _ _ "" hi]

/-- C5 counterexample to the claim as stated: for the two-column table with
`a1 = [1, 2]` and `a2 = [3, 4]`, the built matrix is `[[1, 3], [2, 4]]`; its
entry at row 0, column 1 is `3` (unit 0, annotator 1), not the value `2`
that annotator 0 has on unit 1 as the claimed (annotator, unit) order
requires. -/
theorem C5_builder_axis_order_counterexample :
    compute_reliability_matrix [("a1", [some 1, some 2]), ("a2", [some 3, some 4])]
        ["a1", "a2"] =
      .ok [[some 1, some 3], [some 2, some 4]] ∧
    (([[some (1:ℚ), some 3], [some 2, some 4]] : Mat).getD 0 []).getD 1 none = some 3 ∧
    (dfColumn [("a1", [some 1, some 2]), ("a2", [some 3, some 4])]
        ("a1")).getD 1 none = some 2 ∧
    some (3 : ℚ) ≠ some 2 := by
  refine ⟨?_, rfl, ?_, by norm_num⟩
  · norm_num [compute_reliability_matrix, dfNumRows, dfColumn, List.find?,
      List.range_succ, show decide ("a1" = "a2") = false from by decide,
      show decide ("a1" = "a1") = true from by decide,
      show decide ("a2" = "a2") = true from by decide]
  · norm_num [dfColumn, List.find?, show decide ("a1" = "a1") = true from by decide]

/-- C5 witness: the amended axis-order theorem applied to the concrete
two-column table. -/
theorem C5_builder_axis_order_witness :
    compute_reliability_matrix [("a1", [some 1, some 2]), ("a2", [some 3, some 4])]
        ["a1", "a2"] =
      .ok [[some 1, some 3], [some 2, some 4]] ∧
    (∀ j i, j < dfNumRows [("a1", [some (1:ℚ), some 2]), ("a2", [some 3, some 4])] →
      i < (["a1", "a2"] : List String).length →
      (([[some (1:ℚ), some 3], [some 2, some 4]] : Mat).getD j []).getD i none =
        (dfColumn [("a1", [some 1, some 2]), ("a2", [some 3, some 4])]
          ((["a1", "a2"] : List String).getD i "")).getD j none) := by
  have hok : compute_reliability_matrix
      [("a1", [some (1:ℚ), some 2]), ("a2", [some 3, some 4])] ["a1", "a2"] =
      .ok [[some 1, some 3], [some 2, some 4]] := by
    norm_num [compute_reliability_matrix, dfNumRows, dfColumn, List.find?,
      List.range_succ, show decide ("a1" = "a2") = false from by decide,
      show decide ("a1" = "a1") = true from by decide,
      show decide ("a2" = "a2") = true from by decide]
  exact ⟨hok, (C5_builder_axis_order _ _ _ hok).1⟩

theorem mem_insertSortedStr {x y : String} {l : List String} :
    x ∈ insertSortedStr y l ↔ x = y ∨ x ∈ l := by
  induction l with
  | nil => simp [insertSortedStr]
  | cons z zs ih =>
      rw [insertSortedStr]
      by_cases h : strLt z y
      · rw [if_pos h]
        simp only [List.mem_cons, ih]
        try tauto
      · rw [if_neg h]
        simp only [List.mem_cons]
        try tauto

theorem mem_insSortStr {x : String} {l : List String} :
    x ∈ insSortStr l ↔ x ∈ l := by
  induction l with
  | nil => simp [insSortStr]
  | cons z zs ih =>
      rw [insSortStr, mem_insertSortedStr, ih]
      simp

theorem mem_collapseDupsStr (l : List String) (x : String) :
    x ∈ collapseDupsStr l ↔ x ∈ l := by
  induction l with
  | nil => simp [collapseDupsStr]
  | cons y ys ih =>
      cases ys with
      | nil => simp [collapseDupsStr]
      | cons z zs =>
          rw [collapseDupsStr]
          by_cases h : y = z
          · rw [if_pos h, ih]
            subst h
            simp only [List.mem_cons]
            tauto
          · rw [if_neg h]
            simp only [List.mem_cons, ih]

theorem mem_sortedDistinct {x : String} {l : List String} :
    x ∈ sortedDistinct l ↔ x ∈ l := by
  rw [sortedDistinct, mem_collapseDupsStr, mem_insSortStr]

/-- Both lookups through a label mapping built by enumerating a label list:
a label of the list is mapped forward to a unique code which maps back to
exactly that label. -/
theorem enumerateFrom_roundtrip (l : List String) (i : ℕ) (lab : String)
    (h : lab ∈ l) :
    ∃ c, i ≤ c ∧
      (enumerateFrom i l).find? (fun kv => kv.1 = lab) = some (lab, c) ∧
      (valueToLabel (enumerateFrom i l)).find? (fun kv => kv.1 = c) = some (c, lab) := by
  induction l generalizing i with
  | nil => simp at h
  | cons x xs ih =>
      by_cases hx : x = lab
      · subst hx
        refine ⟨i, le_refl i, ?_, ?_⟩
        · rw [enumerateFrom, List.find?_cons_of_pos _ (by simp)]
        · rw [enumerateFrom, valueToLabel, List.map_cons,
            List.find?_cons_of_pos _ (by simp)]
      · have hmem : lab ∈ xs := by
          rcases List.mem_cons.1 h with h' | h'
          · exact absurd h'.symm hx
          · exact h'
        obtain ⟨c, hc, hfwd, hrev⟩ := ih (i + 1) hmem
        refine ⟨c, by omega, ?_, ?_⟩
        · rw [enumerateFrom, List.find?_cons_of_neg _ (by simpa using hx), hfwd]
        · rw [enumerateFrom, valueToLabel, List.map_cons,
            List.find?_cons_of_neg _ (by simp; omega)]
          exact hrev

/-- C4 (amended): the label mapping of `data_handler.process_dataframe` is
built once from the union of the distinct string labels of all annotator
columns, so one shared mapping covers every column; on that mapping the
forward lookup of every observed label succeeds, reverse lookup of the code
recovers exactly the original label (`reverse(forward(label)) == label`),
and the forward mapping is injective on observed labels (a bijection).
The per-column mappings of `preprocessing.convert_nominal_to_numeric`,
however, are built per column and may give the same label different codes
in different columns (see the counterexample). -/
theorem C4_union_label_mapping (columns : List (List (Option String))) (lab lab' : String)
    (h : lab ∈ (columns.map (fun col => col.filterMap id)).flatten) :
    (∃ code, lookupLabel (unionLabelMapping columns) lab = some code ∧
      lookupCode (valueToLabel (unionLabelMapping columns)) code = some lab) ∧
    (lab' ∈ (columns.map (fun col => col.filterMap id)).flatten →
      lookupLabel (unionLabelMapping columns) lab' =
        lookupLabel (unionLabelMapping columns) lab →
      lab' = lab) := by
  have hmem : lab ∈ sortedDistinct ((columns.map (fun col => col.filterMap id)).flatten) :=
    mem_sortedDistinct.2 h
  obtain ⟨c, _, hfwd, hrev⟩ := enumerateFrom_roundtrip _ 0 lab hmem
  constructor
  · refine ⟨c, ?_, ?_⟩
    · rw [lookupLabel, unionLabelMapping, hfwd]
    · rw [lookupCode, unionLabelMapping, hrev]
  · intro h' heq
    have hmem' : lab' ∈ sortedDistinct ((columns.map (fun col => col.filterMap id)).flatten) :=
      mem_sortedDistinct.2 h'
    obtain ⟨c', _, hfwd', hrev'⟩ := enumerateFrom_roundtrip _ 0 lab' hmem'
    have hc : c' = c := by
      have h1 : lookupLabel (unionLabelMapping columns) lab' = some c' := by
        rw [lookupLabel, unionLabelMapping, hfwd']
      have h2 : lookupLabel (unionLabelMapping columns) lab = some c := by
        rw [lookupLabel, unionLabelMapping, hfwd]
      rw [h1, h2] at heq
      exact Option.some.inj heq
    rw [hc] at hrev'
    have : some (c, lab') = some (c, lab) := hrev'.symm.trans hrev
    simpa using this

/-- C4 counterexample to the claim as stated: `convert_nominal_to_numeric`
builds an independent mapping per column, so for the table with columns
`[a, b]` and `[b, c]` the shared label `b` is coded `1` in the first column
and `0` in the second — the same label does not receive the same integer
code in every column. -/
theorem C4_union_label_mapping_counterexample :
    lookupLabel (convert_nominal_to_numeric_mapping [some "a", some "b"]) "b" = some 1 ∧
    lookupLabel (convert_nominal_to_numeric_mapping [some "b", some "c"]) "b" = some 0 ∧
    (1 : ℕ) ≠ 0 := by
  refine ⟨?_, ?_, by omega⟩ <;> decide

/-- C4 witness: the union mapping of the same two columns maps `b` to one
shared code that maps back to `b`, and distinct observed labels get
distinct codes. -/
theorem C4_union_label_mapping_witness :
    ("b" ∈ (([[some "a", some "b"], [some "b", some "c"]].map
        (fun col => col.filterMap id)).flatten : List String)) ∧
    (∃ code, lookupLabel (unionLabelMapping [[some "a", some "b"], [some "b", some "c"]])
        "b" = some code ∧
      lookupCode (valueToLabel (unionLabelMapping [[some "a", some "b"], [some "b", some "c"]]))
        code = some "b") := by
  have hmem : "b" ∈ (([[some "a", some "b"], [some "b", some "c"]].map
      (fun col => col.filterMap id)).flatten : List String) := by decide
  exact ⟨hmem,
    (C4_union_label_mapping [[some "a", some "b"], [some "b", some "c"]] "b" "b" hmem).1⟩

theorem foldl_fixed {α β : Type} (f : α → β → α) (l : List β) (a : α)
    (h : ∀ acc x, x ∈ l → f acc x = acc) : l.foldl f a = a := by
  induction l generalizing a with
  | nil => rfl
  | cons x xs ih =>
      rw [List.foldl_cons, h a x (by simp)]
      exact ih a (fun acc y hy => h acc y (by simp [hy]))

theorem getD_replicate_none (c j : ℕ) :
    (List.replicate c (none : Cell)).getD j none = none := by
  induction c generalizing j with
  | zero => rfl
  | succ n ih =>
      cases j with
      | zero => rfl
      | succ m =>
          rw [List.replicate_succ, List.getD_cons_succ]
          exact ih m

theorem nonNanIndices_replicate_none (r : ℕ) :
    nonNanIndices (List.replicate r (none : Cell)) = [] := by
  rw [nonNanIndices, List.filter_eq_nil_iff]
  intro i _
  rw [getD_replicate_none]
  simp

theorem filterMap_id_replicate_none (c : ℕ) :
    (List.replicate c (none : Cell)).filterMap id = [] := by
  induction c with
  | zero => rfl
  | succ n ih => rw [List.replicate_succ, List.filterMap_cons]; exact ih

theorem flatten_replicate_nil {α : Type} (r : ℕ) :
    (List.replicate r ([] : List α)).flatten = [] := by
  induction r with
  | zero => rfl
  | succ n ih => rw [List.replicate_succ, List.flatten_cons, List.nil_append]; exact ih

/-- C10: a matrix of valid shape in which every cell is the missing
sentinel produces a result instead of raising: every unit is skipped, so
the zero-pairable branch reports `observed_disagreement = 0.0`, the
empty-frequency branch reports `expected_disagreement = 0.0`, and the
zero-expected-disagreement convention makes the returned alpha `1.0`. -/
theorem C10_all_missing (r c : ℕ) (hr : 3 ≤ r) (hc : 3 ≤ c) (dt : DataTypeEnum)
    (scale : Option (List ℚ)) (mapping : Option (List (PVal × PVal))) (w : List ℚ) :
    krippendorff_alpha (List.replicate r (List.replicate c none)) dt scale mapping w =
      .ok ⟨.fin 1, .fin 0, .fin 0,
        if dt = .nominal ∨ dt = .ordinal then some [] else none⟩ := by
  have hhead : (List.replicate r (List.replicate c (none : Cell))).headD [] =
      List.replicate c none := by
    obtain ⟨r', rfl⟩ : ∃ r', r = r' + 1 := ⟨r - 1, by omega⟩
    rw [List.replicate_succ]
    rfl
  have hnum : numCols (List.replicate r (List.replicate c (none : Cell))) = c := by
    rw [numCols, hhead, List.length_replicate]
  have hcol : ∀ j, colOf (List.replicate r (List.replicate c (none : Cell))) j =
      List.replicate r none := by
    intro j
    rw [colOf, List.map_replicate, getD_replicate_none]
  have hobs : compute_observed_disagreement (List.replicate r (List.replicate c none)) w
      (distanceFor dt scale) dt = (.fin 0, [], []) := by
    rw [compute_observed_disagreement, obsUnitsFold, columnsOf, hnum, List.foldl_map]
    rw [foldl_fixed _ _ _ (fun acc j _ => ?_)]
    · rfl
    · rw [hcol j, obsStep, nonNanIndices_replicate_none]
      rw [if_pos (by norm_num)]
  have hflat : flatNonMissing (List.replicate r (List.replicate c none)) = [] := by
    rw [flatNonMissing, List.map_replicate, filterMap_id_replicate_none,
      flatten_replicate_nil]
  have hexp : compute_expected_disagreement (List.replicate r (List.replicate c none))
      (distanceFor dt scale) dt = (.fin 0, []) := by
    rw [compute_expected_disagreement, hflat]
    rfl
  simp only [krippendorff_alpha]
  rw [if_neg (by
    rw [hnum]
    simp only [MIN_ANNOTATORS_REQUIRED, MIN_SUBJECTS_REQUIRED, List.length_replicate]
    push_neg
    omega)]
  rw [hobs, hexp, hflat]
  show Except.ok _ = _
  have halpha : (if (EF.fin 0).gtZero then (EF.fin 1).sub ((EF.fin 0).div (.fin 0))
      else EF.fin 1) = .fin 1 := by
    rw [if_neg (by simp [EF.gtZero])]
  rw [halpha]
  show Except.ok (AlphaResult.mk ((EF.fin 1).round3) ((EF.fin 0).round3) ((EF.fin 0).round3) _) = _
  rw [Except.ok.injEq, AlphaResult.mk.injEq]
  refine ⟨?_, ?_, ?_, ?_⟩
  · show EF.fin (round3q 1) = EF.fin 1
    rw [round3q_one]
  · show EF.fin (round3q 0) = EF.fin 0
    rw [round3q_zero]
  · show EF.fin (round3q 0) = EF.fin 0
    rw [round3q_zero]
  · rfl

/-- C10 witness: the 3-by-3 all-missing matrix yields alpha `1.0` with both
disagreements `0.0` for nominal data. -/
theorem C10_all_missing_witness :
    krippendorff_alpha (List.replicate 3 (List.replicate 3 none)) .nominal none none
      [1, 1, 1] = .ok ⟨.fin 1, .fin 0, .fin 0, some []⟩ := by
  have := C10_all_missing 3 3 (by omega) (by omega) .nominal none none [1, 1, 1]
  simpa using this

/-- C6: a unit with fewer than 2 non-missing annotator values contributes
nothing at all to the observed-disagreement accumulators — removing it from
the unit sequence leaves the whole fold state (numerator, per-category
dicts, and the pairable-value denominator) unchanged; and a unit with
exactly 2 non-missing values at positions `i < j` adds exactly `2` pairable
values to the denominator and exactly the single pairwise term
`w_i * w_j * distance(v_i, v_j) * unit_weight` to the numerator, with the
normalizer `calculate_unit_weight 2 = 1/(2-1) = 1`. -/
theorem C6_low_pairability_units :
    (∀ (w : List ℚ) (dist : ℚ → ℚ → EF) (dt : DataTypeEnum)
        (us₁ us₂ : List (List Cell)) (u : List Cell),
      (nonNanIndices u).length < 2 →
      obsUnitsFold (us₁ ++ u :: us₂) w dist dt = obsUnitsFold (us₁ ++ us₂) w dist dt) ∧
    (∀ (u : List Cell) (w : List ℚ) (dist : ℚ → ℚ → EF) (dt : DataTypeEnum)
        (acc : ObsAcc) (i j : ℕ),
      nonNanIndices u = [i, j] →
      calculate_unit_weight 2 = 1 ∧
      (obsStep w dist dt acc u).total_pairable_values = acc.total_pairable_values + 2 ∧
      (obsStep w dist dt acc u).observed_disagreement = acc.observed_disagreement.add
        ((((EF.fin (w.getD i 0)).mul (EF.fin (w.getD j 0))).mul
          (dist (valAt u i) (valAt u j))).mul (.fin (calculate_unit_weight 2)))) := by
  constructor
  · intro w dist dt us₁ us₂ u h
    rw [obsUnitsFold, obsUnitsFold, List.foldl_append, List.foldl_append, List.foldl_cons]
    have : obsStep w dist dt (us₁.foldl (obsStep w dist dt) ⟨.fin 0, [], [], 0⟩) u =
        us₁.foldl (obsStep w dist dt) ⟨.fin 0, [], [], 0⟩ := by
      rw [obsStep, if_pos h]
    rw [this]
  · intro u w dist dt acc i j h
    have hw : calculate_unit_weight 2 = 1 := by norm_num [calculate_unit_weight]
    have hlen2 : (nonNanIndices u).length = 2 := by rw [h]; rfl
    have hlen : ¬ ((nonNanIndices u).length < 2) := by omega
    have hpa : (process_unit_pairs u w dist (calculate_unit_weight 2) dt).unit_disagreement =
        (((EF.fin (w.getD i 0)).mul (EF.fin (w.getD j 0))).mul
          (dist (valAt u i) (valAt u j))).mul (.fin (calculate_unit_weight 2)) := by
      rw [process_unit_pairs, h]
      show (pairStep u w dist (calculate_unit_weight 2) dt ⟨.fin 0, [], []⟩
        (i, j)).unit_disagreement = _
      simp only [pairStep]
      split
      · rw [EF.zero_add]
      · rw [EF.zero_add]
    refine ⟨hw, ?_, ?_⟩
    · simp only [obsStep]
      rw [if_neg hlen]
      show acc.total_pairable_values + (nonNanIndices u).length =
        acc.total_pairable_values + 2
      rw [hlen2]
    · simp only [obsStep]
      rw [if_neg hlen]
      show acc.observed_disagreement.add
        (process_unit_pairs u w dist
          (calculate_unit_weight (nonNanIndices u).length) dt).unit_disagreement = _
      rw [hlen2, hpa]

/-- C6 witness: dropping a unit with a single rating leaves the fold state
unchanged, and a unit rated by exactly two of three annotators contributes
one pairwise term with normalizer `1` and two pairable values. -/
theorem C6_low_pairability_units_witness :
    ((nonNanIndices [some (1:ℚ), none, none]).length < 2 ∧
      obsUnitsFold [[some 1, some 1, some 1], [some (1:ℚ), none, none],
          [some 0, some 0, some 0]] [1, 1, 1] nominal_distance .nominal =
        obsUnitsFold [[some 1, some 1, some 1], [some 0, some 0, some 0]]
          [1, 1, 1] nominal_distance .nominal) ∧
    (nonNanIndices [some (2:ℚ), none, some 5] = [0, 2] ∧
      (calculate_unit_weight 2 = 1 ∧
        (obsStep [1, 1, 1] nominal_distance .nominal ⟨.fin 0, [], [], 0⟩
            [some (2:ℚ), none, some 5]).total_pairable_values =
          (⟨.fin 0, [], [], 0⟩ : ObsAcc).total_pairable_values + 2 ∧
        (obsStep [1, 1, 1] nominal_distance .nominal ⟨.fin 0, [], [], 0⟩
            [some (2:ℚ), none, some 5]).observed_disagreement =
          (⟨.fin 0, [], [], 0⟩ : ObsAcc).observed_disagreement.add
            ((((EF.fin (([1, 1, 1] : List ℚ).getD 0 0)).mul
                (EF.fin (([1, 1, 1] : List ℚ).getD 2 0))).mul
              (nominal_distance (valAt [some (2:ℚ), none, some 5] 0)
                (valAt [some (2:ℚ), none, some 5] 2))).mul
              (.fin (calculate_unit_weight 2))))) := by
  have h1 : (nonNanIndices [some (1:ℚ), none, none]).length < 2 := by
    norm_num [nonNanIndices, List.range_succ]
  have h2 : nonNanIndices [some (2:ℚ), none, some 5] = [0, 2] := by
    norm_num [nonNanIndices, List.range_succ]
  exact ⟨⟨h1, C6_low_pairability_units.1 [1, 1, 1] nominal_distance .nominal
      [[some 1, some 1, some 1]] [[some 0, some 0, some 0]]
      [some (1:ℚ), none, none] h1⟩,
    ⟨h2, C6_low_pairability_units.2 [some (2:ℚ), none, some 5] [1, 1, 1]
      nominal_distance .nominal ⟨.fin 0, [], [], 0⟩ 0 2 h2⟩⟩

theorem foldl_preserves {α β : Type} {P : α → Prop} (f : α → β → α) (l : List β) (a : α)
    (hstep : ∀ acc x, x ∈ l → P acc → P (f acc x)) (ha : P a) : P (l.foldl f a) := by
  induction l generalizing a with
  | nil => exact ha
  | cons x xs ih =>
      rw [List.foldl_cons]
      exact ih (f a x) (fun acc y hy => hstep acc y (by simp [hy])) (hstep a x (by simp) ha)

theorem getD_some_mem {l : List Cell} {i : ℕ} {x : ℚ} (h : l.getD i none = some x) :
    some x ∈ l := by
  induction l generalizing i with
  | nil => simp [List.getD] at h
  | cons c cs ih =>
      cases i with
      | zero => exact List.mem_cons.2 (Or.inl h.symm)
      | succ n =>
          rw [List.getD_cons_succ] at h
          exact List.mem_cons.2 (Or.inr (ih h))

theorem mem_flatNonMissing {m : Mat} {r : List Cell} {x : ℚ}
    (hr : r ∈ m) (hx : some x ∈ r) : x ∈ flatNonMissing m := by
  rw [flatNonMissing, List.mem_flatten]
  exact ⟨r.filterMap id, List.mem_map_of_mem _ hr, List.mem_filterMap.2 ⟨some x, hx, rfl⟩⟩

theorem colOf_val_mem {m : Mat} {j i : ℕ} {x : ℚ}
    (h : (colOf m j).getD i none = some x) : x ∈ flatNonMissing m := by
  have hmem : some x ∈ colOf m j := getD_some_mem h
  rw [colOf, List.mem_map] at hmem
  obtain ⟨r, hr, hre⟩ := hmem
  exact mem_flatNonMissing hr (getD_some_mem hre)

theorem nonNanIndices_some {u : List Cell} {i : ℕ} (h : i ∈ nonNanIndices u) :
    ∃ x, u.getD i none = some x ∧ valAt u i = x := by
  rw [nonNanIndices, List.mem_filter] at h
  have h2 : (u.getD i none).isSome = true := h.2
  obtain ⟨x, hx⟩ := Option.isSome_iff_exists.1 h2
  exact ⟨x, hx, by rw [valAt, hx]; rfl⟩

theorem mem_pairsOf {l : List ℕ} {p : ℕ × ℕ} (h : p ∈ pairsOf l) :
    p.1 ∈ l ∧ p.2 ∈ l := by
  induction l with
  | nil => simp [pairsOf] at h
  | cons x xs ih =>
      rw [pairsOf, List.mem_append] at h
      rcases h with h | h
      · rw [List.mem_map] at h
        obtain ⟨y, hy, rfl⟩ := h
        exact ⟨by simp, by simp [hy]⟩
      · have := ih h
        exact ⟨by simp [this.1], by simp [this.2]⟩

theorem getD_nonneg_of_all {w : List ℚ} (hw : ∀ x ∈ w, 0 ≤ x) (a : ℕ) :
    0 ≤ w.getD a 0 := by
  induction w generalizing a with
  | nil => simp [List.getD]
  | cons x xs ih =>
      cases a with
      | zero => exact hw x (by simp)
      | succ n =>
          rw [List.getD_cons_succ]
          exact ih (fun y hy => hw y (by simp [hy])) n

/-- The running unit disagreement after one pair step (the per-category
branch does not touch it). -/
theorem pairStep_unit_disagreement (vals : List Cell) (w : List ℚ)
    (dist : ℚ → ℚ → EF) (uw : ℚ) (dt : DataTypeEnum) (acc : PairAcc) (p : ℕ × ℕ) :
    (pairStep vals w dist uw dt acc p).unit_disagreement =
      acc.unit_disagreement.add
        ((((EF.fin (w.getD p.1 0)).mul (EF.fin (w.getD p.2 0))).mul
          (dist (valAt vals p.1) (valAt vals p.2))).mul (.fin uw)) := by
  simp only [pairStep]
  split <;> rfl

theorem calculate_unit_weight_nonneg (n : ℕ) : 0 ≤ calculate_unit_weight n := by
  by_cases h : n < 2
  · rw [calculate_unit_weight, if_pos h]
  · rw [calculate_unit_weight, if_neg h]
    have h2 : (2 : ℚ) ≤ (n : ℚ) := by exact_mod_cast (by omega : 2 ≤ n)
    have hpos : 0 < (n : ℚ) - 1 := by linarith
    positivity

theorem process_unit_pairs_finNonneg (u : List Cell) (w : List ℚ)
    (dist : ℚ → ℚ → EF) (uw : ℚ) (dt : DataTypeEnum)
    (hw : ∀ x ∈ w, 0 ≤ x) (huw : 0 ≤ uw)
    (hd : ∀ a ∈ nonNanIndices u, ∀ b ∈ nonNanIndices u,
      (dist (valAt u a) (valAt u b)).finNonneg) :
    (process_unit_pairs u w dist uw dt).unit_disagreement.finNonneg := by
  rw [process_unit_pairs]
  refine foldl_preserves (P := fun acc : PairAcc => acc.unit_disagreement.finNonneg)
    _ _ _ (fun acc p hp hacc => ?_) (EF.finNonneg_fin le_rfl)
  show (pairStep u w dist uw dt acc p).unit_disagreement.finNonneg
  rw [pairStep_unit_disagreement]
  have hmem := mem_pairsOf hp
  exact EF.finNonneg_add hacc
    (EF.finNonneg_mul
      (EF.finNonneg_mul
        (EF.finNonneg_mul (EF.finNonneg_fin (getD_nonneg_of_all hw p.1))
          (EF.finNonneg_fin (getD_nonneg_of_all hw p.2)))
        (hd p.1 hmem.1 p.2 hmem.2))
      (EF.finNonneg_fin huw))

theorem obsUnitsFold_finNonneg (units : List (List Cell)) (w : List ℚ)
    (dist : ℚ → ℚ → EF) (dt : DataTypeEnum)
    (hw : ∀ x ∈ w, 0 ≤ x)
    (hd : ∀ u ∈ units, ∀ a ∈ nonNanIndices u, ∀ b ∈ nonNanIndices u,
      (dist (valAt u a) (valAt u b)).finNonneg) :
    (obsUnitsFold units w dist dt).observed_disagreement.finNonneg := by
  rw [obsUnitsFold]
  refine foldl_preserves (P := fun acc : ObsAcc => acc.observed_disagreement.finNonneg)
    _ _ _ (fun acc u hu hacc => ?_) (EF.finNonneg_fin le_rfl)
  show (obsStep w dist dt acc u).observed_disagreement.finNonneg
  rw [obsStep]
  split
  · exact hacc
  · exact EF.finNonneg_add hacc
      (process_unit_pairs_finNonneg u w dist _ dt hw
        (calculate_unit_weight_nonneg _) (hd u hu))

theorem mem_insertSortedQ {x y : ℚ} {l : List ℚ} :
    x ∈ insertSortedQ y l ↔ x = y ∨ x ∈ l := by
  induction l with
  | nil => simp [insertSortedQ]
  | cons z zs ih =>
      rw [insertSortedQ]
      by_cases h : z ≤ y
      · rw [if_pos h]
        simp only [List.mem_cons, ih]
        try tauto
      · rw [if_neg h]
        simp only [List.mem_cons]
        try tauto

theorem mem_insSortQ {x : ℚ} {l : List ℚ} : x ∈ insSortQ l ↔ x ∈ l := by
  induction l with
  | nil => simp [insSortQ]
  | cons z zs ih =>
      rw [insSortQ, mem_insertSortedQ, ih]
      simp

theorem mem_collapseDupsQ (l : List ℚ) (x : ℚ) :
    x ∈ collapseDupsQ l ↔ x ∈ l := by
  induction l with
  | nil => simp [collapseDupsQ]
  | cons y ys ih =>
      cases ys with
      | nil => simp [collapseDupsQ]
      | cons z zs =>
          rw [collapseDupsQ]
          by_cases h : y = z
          · rw [if_pos h, ih]
            subst h
            simp only [List.mem_cons]
            tauto
          · rw [if_neg h]
            simp only [List.mem_cons, ih]

theorem mem_uniqueSorted {x : ℚ} {l : List ℚ} : x ∈ uniqueSorted l ↔ x ∈ l := by
  rw [uniqueSorted, mem_collapseDupsQ, mem_insSortQ]

theorem mem_dset {κ α : Type} [DecidableEq κ] {d : List (κ × α)} {k : κ} {v : α}
    {kv : κ × α} (h : kv ∈ dset d k v) : kv = (k, v) ∨ kv ∈ d := by
  induction d with
  | nil => simpa [dset_nil] using h
  | cons kv' rest ih =>
      rw [dset_cons] at h
      by_cases hk : kv'.1 = k
      · rw [if_pos hk] at h
        rcases List.mem_cons.1 h with h' | h'
        · exact Or.inl h'
        · exact Or.inr (List.mem_cons.2 (Or.inr h'))
      · rw [if_neg hk] at h
        rcases List.mem_cons.1 h with h' | h'
        · exact Or.inr (List.mem_cons.2 (Or.inl h'))
        · rcases ih h' with h'' | h''
          · exact Or.inl h''
          · exact Or.inr (List.mem_cons.2 (Or.inr h''))

theorem dget_nonneg {d : List (ℤ × ℚ)} (h : ∀ kv ∈ d, 0 ≤ kv.2) (k : ℤ) :
    0 ≤ dget d k 0 := by
  induction d with
  | nil => rw [dget_nil]
  | cons kv rest ih =>
      rw [dget_cons]
      by_cases hk : kv.1 = k
      · rw [if_pos hk]
        exact h kv (by simp)
      · rw [if_neg hk]
        exact ih (fun kv' h' => h kv' (by simp [h']))

theorem freqMap_values_nonneg (l : List (ℚ × ℕ)) (t : ℕ) :
    ∀ kv ∈ l.foldl
      (fun fm vc => dset fm (truncToInt vc.1) ((vc.2 : ℚ) / (t : ℚ))) [],
      0 ≤ kv.2 := by
  refine foldl_preserves (P := fun fm : List (ℤ × ℚ) => ∀ kv ∈ fm, 0 ≤ kv.2)
    _ _ _ (fun fm vc _ hfm => ?_) (by simp)
  intro kv hkv
  rcases mem_dset hkv with rfl | h'
  · show (0 : ℚ) ≤ (vc.2 : ℚ) / (t : ℚ)
    positivity
  · exact hfm kv h'

theorem compute_expected_finNonneg (m : Mat) (dist : ℚ → ℚ → EF) (dt : DataTypeEnum)
    (hd : ∀ x ∈ flatNonMissing m, ∀ y ∈ flatNonMissing m, (dist x y).finNonneg) :
    (compute_expected_disagreement m dist dt).1.finNonneg := by
  simp only [compute_expected_disagreement]
  split
  · exact EF.finNonneg_fin le_rfl
  · split
    · exact EF.finNonneg_fin le_rfl
    · refine foldl_preserves
        (P := fun st : EF × List (ℤ × EF) => st.1.finNonneg)
        _ _ _ (fun st v1 hv1 hst => ?_) (EF.finNonneg_fin le_rfl)
      refine foldl_preserves
        (P := fun st : EF × List (ℤ × EF) => st.1.finNonneg)
        _ _ _ (fun st' v2 hv2 hst' => ?_) hst
      have hc := EF.finNonneg_mul
        (hd v1 (mem_uniqueSorted.1 hv1) v2 (mem_uniqueSorted.1 hv2))
        (EF.finNonneg_fin (mul_nonneg
          (dget_nonneg (freqMap_values_nonneg
            ((uniqueSorted (flatNonMissing m)).zip
              ((uniqueSorted (flatNonMissing m)).map
                (fun v => (flatNonMissing m).count v)))
            (((uniqueSorted (flatNonMissing m)).map
              (fun v => (flatNonMissing m).count v)).sum))
            (truncToInt v1))
          (dget_nonneg (freqMap_values_nonneg
            ((uniqueSorted (flatNonMissing m)).zip
              ((uniqueSorted (flatNonMissing m)).map
                (fun v => (flatNonMissing m).count v)))
            (((uniqueSorted (flatNonMissing m)).map
              (fun v => (flatNonMissing m).count v)).sum))
            (truncToInt v2))))
      beta_reduce
      split
      · exact EF.finNonneg_add hst' hc
      · exact EF.finNonneg_add hst' hc

theorem columns_dist_finNonneg {m : Mat} {dist : ℚ → ℚ → EF}
    (hd : ∀ x ∈ flatNonMissing m, ∀ y ∈ flatNonMissing m, (dist x y).finNonneg) :
    ∀ u ∈ columnsOf m, ∀ a ∈ nonNanIndices u, ∀ b ∈ nonNanIndices u,
      (dist (valAt u a) (valAt u b)).finNonneg := by
  intro u hu a ha b hb
  rw [columnsOf, List.mem_map] at hu
  obtain ⟨j, _, rfl⟩ := hu
  obtain ⟨x, hxg, hxv⟩ := nonNanIndices_some ha
  obtain ⟨y, hyg, hyv⟩ := nonNanIndices_some hb
  rw [hxv, hyv]
  exact hd x (colOf_val_mem hxg) y (colOf_val_mem hyg)

theorem compute_observed_finNonneg (m : Mat) (w : List ℚ) (dist : ℚ → ℚ → EF)
    (dt : DataTypeEnum) (hw : ∀ x ∈ w, 0 ≤ x)
    (hd : ∀ x ∈ flatNonMissing m, ∀ y ∈ flatNonMissing m, (dist x y).finNonneg) :
    (compute_observed_disagreement m w dist dt).1.finNonneg := by
  simp only [compute_observed_disagreement]
  split
  · next htot =>
      have h := obsUnitsFold_finNonneg (columnsOf m) w dist dt hw (columns_dist_finNonneg hd)
      exact EF.finNonneg_div_pos h (by exact_mod_cast htot)
  · exact EF.finNonneg_fin le_rfl

/-- Every distance strategy is zero on equal values (also ratio, where the
`a == b == 0` branch and the `(a-b)^2/(a+b)` formula both give `0.0`). -/
theorem distanceFor_self (dt : DataTypeEnum) (scale : Option (List ℚ)) (x : ℚ) :
    distanceFor dt scale x x = .fin 0 := by
  cases dt with
  | nominal => simp [distanceFor, nominal_distance]
  | ordinal =>
      cases scale with
      | none => simp [distanceFor, ordinal_distance, nominal_distance]
      | some s =>
          simp only [distanceFor, ordinal_distance]
          split
          · simp [nominal_distance]
          · norm_num
  | interval => simp [distanceFor, interval_distance]
  | ratio =>
      by_cases hx : x = 0
      · subst hx
        rw [distanceFor, ratio_distance, if_pos ⟨rfl, rfl⟩]
      · rw [distanceFor, ratio_distance, if_neg (fun h => hx h.1),
          if_neg (fun h => hx (by linarith))]
        norm_num

theorem obsUnitsFold_zero (units : List (List Cell)) (w : List ℚ)
    (dist : ℚ → ℚ → EF) (dt : DataTypeEnum)
    (hz : ∀ u ∈ units, ∀ a ∈ nonNanIndices u, ∀ b ∈ nonNanIndices u,
      dist (valAt u a) (valAt u b) = .fin 0) :
    (obsUnitsFold units w dist dt).observed_disagreement = .fin 0 := by
  rw [obsUnitsFold]
  refine foldl_preserves (P := fun acc : ObsAcc => acc.observed_disagreement = .fin 0)
    _ _ _ (fun acc u hu hacc => ?_) rfl
  show (obsStep w dist dt acc u).observed_disagreement = .fin 0
  simp only [obsStep]
  split
  · exact hacc
  · have hpa : (process_unit_pairs u w dist
        (calculate_unit_weight (nonNanIndices u).length) dt).unit_disagreement =
        .fin 0 := by
      rw [process_unit_pairs]
      refine foldl_preserves (P := fun acc : PairAcc => acc.unit_disagreement = .fin 0)
        _ _ _ (fun pacc p hp hpacc => ?_) rfl
      show (pairStep u w dist _ dt pacc p).unit_disagreement = .fin 0
      rw [pairStep_unit_disagreement, hpacc]
      have hmem := mem_pairsOf hp
      rw [hz u hu p.1 hmem.1 p.2 hmem.2]
      show EF.fin (0 + w.getD p.1 0 * w.getD p.2 0 * 0 *
        calculate_unit_weight (nonNanIndices u).length) = EF.fin 0
      norm_num
    rw [hpa]
    show acc.observed_disagreement.add (.fin 0) = .fin 0
    rw [EF.add_zero, hacc]

/-- On a per-unit-constant matrix the observed disagreement the engine
computes is exactly `0.0`. -/
theorem compute_observed_zero_of_perfect (m : Mat) (w : List ℚ)
    (dt : DataTypeEnum) (scale : Option (List ℚ))
    (hperf : ∀ u ∈ columnsOf m, ∀ x ∈ u.filterMap id, ∀ y ∈ u.filterMap id, x = y) :
    (compute_observed_disagreement m w (distanceFor dt scale) dt).1 = .fin 0 := by
  have hz : ∀ u ∈ columnsOf m, ∀ a ∈ nonNanIndices u, ∀ b ∈ nonNanIndices u,
      distanceFor dt scale (valAt u a) (valAt u b) = .fin 0 := by
    intro u hu a ha b hb
    obtain ⟨x, hxg, hxv⟩ := nonNanIndices_some ha
    obtain ⟨y, hyg, hyv⟩ := nonNanIndices_some hb
    have hx : x ∈ u.filterMap id := List.mem_filterMap.2 ⟨some x, getD_some_mem hxg, rfl⟩
    have hy : y ∈ u.filterMap id := List.mem_filterMap.2 ⟨some y, getD_some_mem hyg, rfl⟩
    rw [hxv, hyv, hperf u hu x hx y hy]
    exact distanceFor_self dt scale y
  simp only [compute_observed_disagreement]
  split
  · next htot =>
      rw [obsUnitsFold_zero _ _ _ _ hz,
        EF.div_fin_fin _ _ (by exact_mod_cast htot.ne')]
      norm_num
  · rfl

/-- C1 (amended): whenever every pairwise distance over the matrix's coded
values is a non-negative finite number — which holds unconditionally for
the nominal, ordinal and interval strategies, and for the ratio strategy on
matrices with non-negative entries — and the annotator weights are
non-negative, every returned alpha is a finite value at most `1.0`; and
under perfect agreement (all non-missing values identical within every
unit) the returned alpha is exactly `1.0` and the returned
observed_disagreement is exactly `0.0`.  (As stated, with ratio matrices
containing negative entries admitted, the bound is false: see the
counterexample, where alpha is `1.086`.) -/
theorem C1_alpha_at_most_one (df : Mat) (dt : DataTypeEnum) (scale : Option (List ℚ))
    (mapping : Option (List (PVal × PVal))) (w : List ℚ) (r : AlphaResult)
    (hw : ∀ x ∈ w, 0 ≤ x)
    (hd : ∀ x ∈ flatNonMissing df, ∀ y ∈ flatNonMissing df,
      (distanceFor dt scale x y).finNonneg)
    (hok : krippendorff_alpha df dt scale mapping w = .ok r) :
    (∃ q : ℚ, r.alpha = .fin q ∧ q ≤ 1) ∧
    ((∀ u ∈ columnsOf df, ∀ x ∈ u.filterMap id, ∀ y ∈ u.filterMap id, x = y) →
      r.alpha = .fin 1 ∧ r.observed_disagreement = .fin 0) := by
  by_cases hshape : numCols df < MIN_ANNOTATORS_REQUIRED ∨ df.length < MIN_SUBJECTS_REQUIRED
  · simp only [krippendorff_alpha] at hok
    rw [if_pos hshape] at hok
    exact absurd hok (by simp)
  · simp only [krippendorff_alpha] at hok
    rw [if_neg hshape] at hok
    rcases hmatch : compute_per_category_scores (uniqueSorted (flatNonMissing df))
        (compute_observed_disagreement df w (distanceFor dt scale) dt).2.1
        (compute_expected_disagreement df (distanceFor dt scale) dt).2
        (compute_observed_disagreement df w (distanceFor dt scale) dt).2.2 mapping
      with e | scores
    · rw [hmatch] at hok
      exact absurd hok (by simp)
    · rw [hmatch] at hok
      simp only [Except.ok.injEq] at hok
      subst hok
      obtain ⟨S, hS, hS0⟩ := compute_observed_finNonneg df w (distanceFor dt scale) dt hw hd
      obtain ⟨E, hE, hE0⟩ := compute_expected_finNonneg df (distanceFor dt scale) dt hd
      constructor
      · show ∃ q, (if (compute_expected_disagreement df (distanceFor dt scale) dt).1.gtZero
            then (EF.fin 1).sub
              ((compute_observed_disagreement df w (distanceFor dt scale) dt).1.div
                (compute_expected_disagreement df (distanceFor dt scale) dt).1)
            else .fin 1).round3 = .fin q ∧ q ≤ 1
        rw [hS, hE]
        by_cases hpos : (0 : ℚ) < E
        · rw [if_pos (by simp [EF.gtZero, hpos]),
            EF.div_fin_fin _ _ hpos.ne', EF.sub_fin_fin]
          exact ⟨round3q (1 - S / E), rfl,
            round3q_le_one (by
              have : 0 ≤ S / E := div_nonneg hS0 hpos.le
              linarith)⟩
        · rw [if_neg (by simp [EF.gtZero, hpos])]
          exact ⟨round3q 1, rfl, by rw [round3q_one]⟩
      · intro hperf
        have hobs0 := compute_observed_zero_of_perfect df w dt scale hperf
        constructor
        · show (if (compute_expected_disagreement df (distanceFor dt scale) dt).1.gtZero
              then (EF.fin 1).sub
                ((compute_observed_disagreement df w (distanceFor dt scale) dt).1.div
                  (compute_expected_disagreement df (distanceFor dt scale) dt).1)
              else .fin 1).round3 = .fin 1
          rw [hobs0, hE]
          by_cases hpos : (0 : ℚ) < E
          · rw [if_pos (by simp [EF.gtZero, hpos]),
              EF.div_fin_fin _ _ hpos.ne', EF.sub_fin_fin]
            show EF.fin (round3q (1 - 0 / E)) = .fin 1
            rw [zero_div, sub_zero, round3q_one]
          · rw [if_neg (by simp [EF.gtZero, hpos])]
            show EF.fin (round3q 1) = .fin 1
            rw [round3q_one]
        · show (compute_observed_disagreement df w (distanceFor dt scale) dt).1.round3 =
            .fin 0
          rw [hobs0]
          show EF.fin (round3q 0) = .fin 0
          rw [round3q_zero]

theorem tdiv_one_int (n : ℤ) : n.tdiv 1 = n := by
  cases n with
  | ofNat m =>
      show Int.ofNat (m / 1) = Int.ofNat m
      rw [Nat.div_one]
  | negSucc m =>
      show -(Int.ofNat ((m + 1) / 1)) = Int.negSucc m
      rw [Nat.div_one]
      rfl

theorem truncToInt_intCast (n : ℤ) : truncToInt (n : ℚ) = n := by
  rw [truncToInt, Rat.num_intCast, Rat.den_intCast]
  show n.tdiv ((1 : ℕ) : ℤ) = n
  rw [Nat.cast_one, tdiv_one_int]

theorem truncToInt_q0 : truncToInt 0 = 0 := by
  rw [show (0 : ℚ) = ((0 : ℤ) : ℚ) by norm_num, truncToInt_intCast]

theorem truncToInt_q1 : truncToInt 1 = 1 := by
  rw [show (1 : ℚ) = ((1 : ℤ) : ℚ) by norm_num, truncToInt_intCast]

theorem truncToInt_q2 : truncToInt 2 = 2 := by
  rw [show (2 : ℚ) = ((2 : ℤ) : ℚ) by norm_num, truncToInt_intCast]

theorem truncToInt_q10 : truncToInt 10 = 10 := by
  rw [show (10 : ℚ) = ((10 : ℤ) : ℚ) by norm_num, truncToInt_intCast]

theorem truncToInt_q20 : truncToInt 20 = 20 := by
  rw [show (20 : ℚ) = ((20 : ℤ) : ℚ) by norm_num, truncToInt_intCast]

theorem truncToInt_qneg1 : truncToInt (-1) = -1 := by
  rw [show (-1 : ℚ) = ((-1 : ℤ) : ℚ) by norm_num, truncToInt_intCast]

theorem truncToInt_qneg4 : truncToInt (-4) = -4 := by
  rw [show (-4 : ℚ) = ((-4 : ℤ) : ℚ) by norm_num, truncToInt_intCast]

theorem nominal_distance_finNonneg (x y : ℚ) : (nominal_distance x y).finNonneg :=
  ⟨if x = y then 0 else 1, rfl, by split <;> norm_num⟩

theorem ordinal_distance_finNonneg (x y : ℚ) (scale : Option (List ℚ)) :
    (ordinal_distance x y scale).finNonneg := by
  cases scale with
  | none => exact nominal_distance_finNonneg x y
  | some s =>
      rw [ordinal_distance]
      split
      · exact nominal_distance_finNonneg x y
      · exact ⟨_, rfl, by positivity⟩

theorem interval_distance_finNonneg (x y : ℚ) : (interval_distance x y).finNonneg :=
  ⟨(x - y) ^ 2, rfl, by positivity⟩

theorem ratio_distance_finNonneg {x y : ℚ} (hx : 0 ≤ x) (hy : 0 ≤ y) :
    (ratio_distance x y).finNonneg := by
  rw [ratio_distance]
  by_cases h1 : x = 0 ∧ y = 0
  · rw [if_pos h1]
    exact ⟨0, rfl, le_rfl⟩
  · rw [if_neg h1]
    have hsum : 0 < x + y := by
      rcases hx.lt_or_eq with h | h
      · linarith
      · rcases hy.lt_or_eq with h' | h'
        · linarith
        · exact absurd ⟨h.symm, h'.symm⟩ h1
    rw [if_neg hsum.ne']
    exact ⟨_, rfl, by positivity⟩

/-- Every distance strategy yields a non-negative finite value, except that
ratio needs non-negative inputs (justifying the amended form of C1). -/
theorem distanceFor_finNonneg (dt : DataTypeEnum) (scale : Option (List ℚ)) (x y : ℚ)
    (h : dt = .ratio → 0 ≤ x ∧ 0 ≤ y) : (distanceFor dt scale x y).finNonneg := by
  cases dt with
  | nominal => exact nominal_distance_finNonneg x y
  | ordinal => exact ordinal_distance_finNonneg x y scale
  | interval => exact interval_distance_finNonneg x y
  | ratio => exact ratio_distance_finNonneg (h rfl).1 (h rfl).2

/-- A 3-annotator, 3-unit nominal matrix with perfect agreement (every unit
column is constant), as handed to the engine. -/
def perfectMat : Mat :=
  [[some 1, some 0, some 1], [some 1, some 0, some 1], [some 1, some 0, some 1]]

/-- The engine's output on `perfectMat`: alpha `1.0`, observed `0.0`,
expected `0.444` (the chance disagreement of the 1/3–2/3 label split). -/
def perfectRes : AlphaResult :=
  ⟨.fin 1, .fin 0, .fin (111/250),
    some [(.numStr 0, (.fin 0, .fin (111/500))), (.numStr 1, (.fin 0, .fin (111/500)))]⟩

set_option maxHeartbeats 2000000 in
theorem perfectMat_eval :
    krippendorff_alpha perfectMat .nominal none none [1, 1, 1] = .ok perfectRes := by
  norm_num [perfectMat, perfectRes, krippendorff_alpha, MIN_ANNOTATORS_REQUIRED,
    MIN_SUBJECTS_REQUIRED, distanceFor, nominal_distance,
    compute_observed_disagreement, obsUnitsFold, columnsOf, numCols, colOf, obsStep,
    nonNanIndices, pairsOf, valAt, process_unit_pairs, pairStep,
    calculate_unit_weight, SYMMETRIC_DISAGREEMENT_DIVISOR, truncToInt_q0,
    truncToInt_q1, dget, dset, mergeAddEF, mergeAddNat,
    compute_expected_disagreement, flatNonMissing, uniqueSorted, insSortQ,
    insertSortedQ, collapseDupsQ, compute_per_category_scores, perCatGo, perCatKey,
    EF.add, EF.mul, EF.div, EF.sub, EF.neg, EF.gtZero, EF.round3, round3q, roundHE,
    DEFAULT_DECIMAL_PLACES, List.find?, List.range_succ, List.filterMap_cons,
    List.count_cons, List.count_nil, -Int.self_sub_floor]

/-- C1 witness: the amended theorem applied to the perfect-agreement
nominal matrix, whose evaluated result indeed has alpha `1.0` and observed
disagreement `0.0`. -/
theorem C1_alpha_at_most_one_witness :
    (∀ x ∈ ([1, 1, 1] : List ℚ), 0 ≤ x) ∧
    krippendorff_alpha perfectMat .nominal none none [1, 1, 1] = .ok perfectRes ∧
    (∃ q : ℚ, perfectRes.alpha = .fin q ∧ q ≤ 1) ∧
    (perfectRes.alpha = .fin 1 ∧ perfectRes.observed_disagreement = .fin 0) := by
  have hw : ∀ x ∈ ([1, 1, 1] : List ℚ), 0 ≤ x := by norm_num
  have hd : ∀ x ∈ flatNonMissing perfectMat, ∀ y ∈ flatNonMissing perfectMat,
      (distanceFor .nominal none x y).finNonneg :=
    fun x _ y _ => nominal_distance_finNonneg x y
  have hperf : ∀ u ∈ columnsOf perfectMat, ∀ x ∈ u.filterMap id,
      ∀ y ∈ u.filterMap id, x = y := by
    intro u hu
    have : u = [some 1, some 1, some 1] ∨ u = [some 0, some 0, some 0] ∨
        u = [some 1, some 1, some 1] := by
      simpa [columnsOf, numCols, colOf, perfectMat, List.range_succ] using hu
    rcases this with rfl | rfl | rfl <;>
      (intro x hx y hy
       simp only [List.filterMap_cons, List.filterMap_nil, id, List.mem_cons,
         List.not_mem_nil, or_false] at hx hy
       rcases hx with rfl | rfl | rfl <;> rcases hy with rfl | rfl | rfl <;> rfl)
  have h := C1_alpha_at_most_one perfectMat .nominal none none [1, 1, 1] perfectRes
    hw hd perfectMat_eval
  exact ⟨hw, perfectMat_eval, h.1, h.2 hperf⟩

/-- C3 witness: the aggregator relations at the evaluated
perfect-agreement run (there `D_e = 0.444 > 0` and the reported alpha is
`round(1 - 0/D_e, 3) = 1.0`). -/
theorem C3_aggregator_formula_witness :
    krippendorff_alpha perfectMat .nominal none none [1, 1, 1] = .ok perfectRes ∧
    (perfectRes.observed_disagreement =
      (compute_observed_disagreement perfectMat [1, 1, 1]
        (distanceFor .nominal none) .nominal).1.round3 ∧
     perfectRes.expected_disagreement =
      (compute_expected_disagreement perfectMat (distanceFor .nominal none) .nominal).1.round3 ∧
     ((compute_expected_disagreement perfectMat (distanceFor .nominal none) .nominal).1.gtZero = true →
      perfectRes.alpha = ((EF.fin 1).sub
        ((compute_observed_disagreement perfectMat [1, 1, 1]
          (distanceFor .nominal none) .nominal).1.div
         (compute_expected_disagreement perfectMat (distanceFor .nominal none) .nominal).1)).round3) ∧
     ((compute_expected_disagreement perfectMat (distanceFor .nominal none) .nominal).1 = .fin 0 →
      perfectRes.alpha = .fin 1)) :=
  ⟨perfectMat_eval,
    C3_aggregator_formula perfectMat .nominal none none [1, 1, 1] perfectRes perfectMat_eval⟩

set_option maxHeartbeats 2000000 in
/-- C1 counterexample to the claim as stated: an accepted ratio matrix
(3 annotators, 3 units, finite entries or NaN, unit weights) containing a
negative value.  The pair `(1, -4)` has ratio distance `25/(-3) < 0`, the
observed disagreement becomes `-5/6` (reported `-0.833`), the expected
disagreement `9.719` is positive, and the reported alpha is
`round(1 + (5/6)/9.719..., 3) = 1.086 > 1.0`. -/
theorem C1_alpha_at_most_one_counterexample :
    (∀ x ∈ ([1, 1, 1] : List ℚ), 0 ≤ x) ∧
    krippendorff_alpha
        [[some 1, some 10, some 10], [some (-4), some 10, some 20], [none, none, none]]
        .ratio none none [1, 1, 1] =
      .ok ⟨.fin (543/500), .fin (-833/1000), .fin (9719/1000), none⟩ ∧
    ¬ ((543/500 : ℚ) ≤ 1) := by
  refine ⟨by norm_num, ?_, by norm_num⟩
  norm_num [krippendorff_alpha, MIN_ANNOTATORS_REQUIRED,
    MIN_SUBJECTS_REQUIRED, distanceFor, ratio_distance,
    compute_observed_disagreement, obsUnitsFold, columnsOf, numCols, colOf, obsStep,
    nonNanIndices, pairsOf, valAt, process_unit_pairs, pairStep,
    calculate_unit_weight, SYMMETRIC_DISAGREEMENT_DIVISOR, truncToInt_q1,
    truncToInt_q10, truncToInt_q20, truncToInt_qneg4, dget, dset, mergeAddEF,
    mergeAddNat, compute_expected_disagreement, flatNonMissing, uniqueSorted,
    insSortQ, insertSortedQ, collapseDupsQ, compute_per_category_scores, perCatGo,
    perCatKey, EF.add, EF.mul, EF.div, EF.sub, EF.neg, EF.gtZero, EF.round3,
    round3q, roundHE, DEFAULT_DECIMAL_PLACES, List.find?, List.range_succ,
    List.filterMap_cons, List.count_cons, List.count_nil, -Int.self_sub_floor,
    show ¬ (DataTypeEnum.ratio = DataTypeEnum.nominal ∨
      DataTypeEnum.ratio = DataTypeEnum.ordinal) from by decide]

set_option maxHeartbeats 2000000 in
/-- C9 counterexample to the claim as stated: on the accepted ratio matrix
whose first unit holds the singular pair `(1, -1)`, the `+inf` distance
makes both the observed and the expected disagreement `+inf`, and the
reported alpha is `1 - inf/inf = nan` — a NaN propagates silently into the
final reported alpha. -/
theorem C9_ratio_singularity_policy_counterexample :
    krippendorff_alpha
        [[some 1, some 2, some 2], [some (-1), some 2, some 2], [none, none, none]]
        .ratio none none [1, 1, 1] =
      .ok ⟨.nan, .inf, .inf, none⟩ := by
  norm_num [krippendorff_alpha, MIN_ANNOTATORS_REQUIRED,
    MIN_SUBJECTS_REQUIRED, distanceFor, ratio_distance,
    compute_observed_disagreement, obsUnitsFold, columnsOf, numCols, colOf, obsStep,
    nonNanIndices, pairsOf, valAt, process_unit_pairs, pairStep,
    calculate_unit_weight, SYMMETRIC_DISAGREEMENT_DIVISOR, truncToInt_q1,
    truncToInt_q2, truncToInt_qneg1, dget, dset, mergeAddEF,
    mergeAddNat, compute_expected_disagreement, flatNonMissing, uniqueSorted,
    insSortQ, insertSortedQ, collapseDupsQ, compute_per_category_scores, perCatGo,
    perCatKey, EF.add, EF.mul, EF.div, EF.sub, EF.neg, EF.gtZero, EF.round3,
    round3q, roundHE, DEFAULT_DECIMAL_PLACES, List.find?, List.range_succ,
    List.filterMap_cons, List.count_cons, List.count_nil, -Int.self_sub_floor,
    show ¬ (DataTypeEnum.ratio = DataTypeEnum.nominal ∨
      DataTypeEnum.ratio = DataTypeEnum.ordinal) from by decide]

/-- Inserting into a `≤`-sorted list keeps it sorted. -/
theorem sorted_insertSortedQ {l : List ℚ} (x : ℚ) (h : l.Sorted (· ≤ ·)) :
    (insertSortedQ x l).Sorted (· ≤ ·) := by
  induction l with
  | nil => simp [insertSortedQ]
  | cons y ys ih =>
      rw [List.sorted_cons] at h
      rw [insertSortedQ]
      by_cases hyx : y ≤ x
      · rw [if_pos hyx, List.sorted_cons]
        refine ⟨fun b hb => ?_, ih h.2⟩
        rcases mem_insertSortedQ.1 hb with rfl | hb
        · exact hyx
        · exact h.1 b hb
      · rw [if_neg hyx, List.sorted_cons]
        have hxy : x ≤ y := le_of_not_le hyx
        refine ⟨fun b hb => ?_, List.sorted_cons.2 h⟩
        rcases List.mem_cons.1 hb with rfl | hb
        · exact hxy
        · exact le_trans hxy (h.1 b hb)

/-- The insertion sort used to model the sorted output of `np.unique`
produces a `≤`-sorted list. -/
theorem sorted_insSortQ (l : List ℚ) : (insSortQ l).Sorted (· ≤ ·) := by
  induction l with
  | nil => simp [insSortQ]
  | cons x xs ih => exact sorted_insertSortedQ x ih

/-- Collapsing adjacent duplicates of a `≤`-sorted list gives a strictly
sorted list. -/
theorem sorted_lt_collapseDupsQ (l : List ℚ) (h : l.Sorted (· ≤ ·)) :
    (collapseDupsQ l).Sorted (· < ·) := by
  induction l with
  | nil => simp [collapseDupsQ]
  | cons x rest ih =>
      cases rest with
      | nil => simp [collapseDupsQ]
      | cons y r =>
          rw [List.sorted_cons] at h
          rw [collapseDupsQ]
          by_cases hxy : x = y
          · rw [if_pos hxy]
            exact ih h.2
          · rw [if_neg hxy, List.sorted_cons]
            refine ⟨fun b hb => ?_, ih h.2⟩
            have hbmem : b ∈ y :: r := (mem_collapseDupsQ _ b).1 hb
            rcases List.mem_cons.1 hbmem with rfl | hbr
            · exact lt_of_le_of_ne (h.1 b hbmem) hxy
            · have hy := List.sorted_cons.1 h.2
              have hyb : y ≤ b := hy.1 b hbr
              have hxy2 : x ≤ y := h.1 y (by simp)
              exact lt_of_le_of_ne (le_trans hxy2 hyb)
                (fun he => hxy (le_antisymm hxy2 (by rw [he]; exact hyb)))

/-- `np.unique` returns distinct values: the sorted unique list has no
duplicates. -/
theorem nodup_uniqueSorted (l : List ℚ) : (uniqueSorted l).Nodup :=
  (sorted_lt_collapseDupsQ _ (sorted_insSortQ l)).nodup

/-- Setting a fresh key appends the pair at the end of the dict. -/
theorem dset_append_of_not_mem {κ α : Type} [DecidableEq κ] {d : List (κ × α)} {k : κ}
    (h : k ∉ keysOf d) (v : α) : dset d k v = d ++ [(k, v)] := by
  induction d with
  | nil => rfl
  | cons kv rest ih =>
      simp only [keysOf, List.map_cons, List.mem_cons] at h
      push_neg at h
      rw [dset_cons, if_neg (fun he => h.1 he.symm), ih (by simpa [keysOf] using h.2)]
      rfl

/-- The entry that `compute_per_category_scores` emits for one category when
no label mapping is supplied: the key is `str(category)` and the observed
score is the attributed disagreement divided by
`max(pairwise_counts.get(int(c), 1), 1)`. -/
def perCatEntry (per_category_obs_dis per_category_exp_dis : List (ℤ × EF))
    (pairwise_counts : List (ℤ × ℕ)) (v : ℚ) : PVal × (EF × EF) :=
  (.numStr v,
    ((dget per_category_obs_dis (truncToInt v) (.fin 0)).div
       (.fin ((max (dget pairwise_counts (truncToInt v) 1) 1 : ℕ) : ℚ)),
     dget per_category_exp_dis (truncToInt v) (.fin 0)))

/-- With no label mapping and distinct fresh category values, the score loop
appends one `perCatEntry` per category, in order. -/
theorem perCatGo_none_shape (obsD expD : List (ℤ × EF)) (cts : List (ℤ × ℕ))
    (vs : List ℚ) :
    ∀ acc : List (PVal × (EF × EF)),
      vs.Nodup → (∀ v ∈ vs, PVal.numStr v ∉ keysOf acc) →
      perCatGo obsD expD cts none vs acc =
        .ok (acc ++ vs.map (perCatEntry obsD expD cts)) := by
  induction vs with
  | nil =>
      intro acc _ _
      simp [perCatGo]
  | cons v vs ih =>
      intro acc hnd hkeys
      rw [List.nodup_cons] at hnd
      have hstep : perCatGo obsD expD cts none (v :: vs) acc =
          perCatGo obsD expD cts none vs
            (dset acc (.numStr v) (perCatEntry obsD expD cts v).2) := rfl
      rw [hstep, dset_append_of_not_mem (hkeys v (by simp)) _]
      rw [ih _ hnd.2 ?_]
      · rw [List.map_cons, List.append_assoc]
        rfl
      · intro u hu hmem
        rw [keysOf, List.map_append, List.mem_append] at hmem
        rcases hmem with hmem | hmem
        · exact hkeys u (by simp [hu]) (by simpa [keysOf] using hmem)
        · have : u = v := by simpa [perCatEntry] using hmem
          exact hnd.1 (this ▸ hu)

/-- Looking a category key up in the emitted score list finds that
category's entry. -/
theorem dget_map_perCatEntry (obsD expD : List (ℤ × EF)) (cts : List (ℤ × ℕ))
    (vs : List ℚ) (hnd : vs.Nodup) (u : ℚ) (hu : u ∈ vs) (dflt : EF × EF) :
    dget (vs.map (perCatEntry obsD expD cts)) (.numStr u) dflt =
      (perCatEntry obsD expD cts u).2 := by
  induction vs with
  | nil => simp at hu
  | cons v vs ih =>
      rw [List.nodup_cons] at hnd
      rw [List.map_cons, dget_cons]
      by_cases hvu : v = u
      · subst hvu
        rw [if_pos (show (perCatEntry obsD expD cts v).1 = PVal.numStr v from rfl)]
      · rw [if_neg ?_, ih hnd.2 ((List.mem_cons.1 hu).resolve_left
          (fun he => hvu he.symm))]
        intro he
        exact hvu (by simpa [perCatEntry] using he)

/-- Invariant of the pair loop of `_process_unit_pairs`: the per-category
dict's values sum to the running unit disagreement, its keys are distinct,
and every key is the truncation of some non-missing matrix value. -/
abbrev PairInv (m : Mat) (acc : PairAcc) : Prop :=
  dictSumEF acc.per_category_dis = acc.unit_disagreement ∧
  (keysOf acc.per_category_dis).Nodup ∧
  ∀ k ∈ keysOf acc.per_category_dis, ∃ x ∈ flatNonMissing m, k = truncToInt x

/-- A non-missing value of a column of the matrix is one of the matrix's
non-missing values. -/
theorem valAt_mem_flat {m : Mat} {u : List Cell} (hu : u ∈ columnsOf m) {i : ℕ}
    (hi : i ∈ nonNanIndices u) : valAt u i ∈ flatNonMissing m := by
  obtain ⟨x, hx, hvx⟩ := nonNanIndices_some hi
  rw [hvx]
  rw [columnsOf, List.mem_map] at hu
  obtain ⟨j, _, rfl⟩ := hu
  exact colOf_val_mem hx

/-- For nominal/ordinal data one pair step attributes exactly the pair's
weighted disagreement to the categories (half to each), so the conservation
invariant is preserved. -/
theorem pairStep_conservation (m : Mat) (vals : List Cell) (w : List ℚ)
    (dist : ℚ → ℚ → EF) (uw : ℚ) (dt : DataTypeEnum)
    (hdt : dt = .nominal ∨ dt = .ordinal) (acc : PairAcc) (p : ℕ × ℕ)
    (hp1 : valAt vals p.1 ∈ flatNonMissing m)
    (hp2 : valAt vals p.2 ∈ flatNonMissing m)
    (hinv : PairInv m acc) : PairInv m (pairStep vals w dist uw dt acc p) := by
  obtain ⟨hsum, hnd, hkeys⟩ := hinv
  simp only [pairStep]
  rw [if_pos hdt]
  refine ⟨?_, ?_, ?_⟩
  · show dictSumEF (dset (dset acc.per_category_dis _ _) _ _) = _
    rw [dictSumEF_dset_add, dictSumEF_dset_add, hsum, EF.add_assoc]
    simp only [SYMMETRIC_DISAGREEMENT_DIVISOR]
    rw [EF.half_add_half]
  · exact keys_nodup_dset (keys_nodup_dset hnd)
  · intro k hk
    rcases mem_keys_dset hk with rfl | hk'
    · exact ⟨valAt vals p.2, hp2, rfl⟩
    · rcases mem_keys_dset hk' with rfl | hk''
      · exact ⟨valAt vals p.1, hp1, rfl⟩
      · exact hkeys k hk''

/-- The pair loop of `_process_unit_pairs` establishes the conservation
invariant for any unit that is a column of the matrix. -/
theorem process_unit_pairs_conservation (m : Mat) (u : List Cell) (w : List ℚ)
    (dist : ℚ → ℚ → EF) (uw : ℚ) (dt : DataTypeEnum)
    (hdt : dt = .nominal ∨ dt = .ordinal) (hu : u ∈ columnsOf m) :
    PairInv m (process_unit_pairs u w dist uw dt) := by
  rw [process_unit_pairs]
  refine foldl_preserves (P := PairInv m) _ _ _ (fun acc p hp hacc => ?_)
    ⟨rfl, by simp [keysOf], by simp [keysOf]⟩
  have hmem := mem_pairsOf hp
  exact pairStep_conservation m u w dist uw dt hdt acc p
    (valAt_mem_flat hu hmem.1) (valAt_mem_flat hu hmem.2) hacc

/-- Invariant of the unit loop of `compute_observed_disagreement`: the
global per-category dict's values sum to the accumulated observed
disagreement, its keys are distinct truncations of non-missing matrix
values, and a zero pairable total means no disagreement was accumulated. -/
abbrev ObsInv (m : Mat) (acc : ObsAcc) : Prop :=
  dictSumEF acc.per_category_obs_dis = acc.observed_disagreement ∧
  (keysOf acc.per_category_obs_dis).Nodup ∧
  (∀ k ∈ keysOf acc.per_category_obs_dis, ∃ x ∈ flatNonMissing m, k = truncToInt x) ∧
  (acc.total_pairable_values = 0 → acc.observed_disagreement = .fin 0)

/-- One unit step preserves the conservation invariant: merging the unit's
per-category dict adds exactly the unit's disagreement to the dict sum. -/
theorem obsStep_ObsInv (m : Mat) (w : List ℚ) (dist : ℚ → ℚ → EF)
    (dt : DataTypeEnum) (hdt : dt = .nominal ∨ dt = .ordinal) (acc : ObsAcc)
    (u : List Cell) (hu : u ∈ columnsOf m) (hinv : ObsInv m acc) :
    ObsInv m (obsStep w dist dt acc u) := by
  obtain ⟨hsum, hnd, hkeys, htot⟩ := hinv
  simp only [obsStep]
  by_cases hn : (nonNanIndices u).length < 2
  · rw [if_pos hn]
    exact ⟨hsum, hnd, hkeys, htot⟩
  · rw [if_neg hn]
    obtain ⟨hpsum, hpnd, hpkeys⟩ :=
      process_unit_pairs_conservation m u w dist
        (calculate_unit_weight (nonNanIndices u).length) dt hdt hu
    refine ⟨?_, ?_, ?_, ?_⟩
    · show dictSumEF (mergeAddEF acc.per_category_obs_dis _) = _
      rw [dictSumEF_mergeAddEF, hsum, hpsum]
    · exact keys_nodup_mergeAddEF _ hnd
    · intro k hk
      rcases mem_keys_mergeAddEF hk with hk' | hk'
      · exact hkeys k hk'
      · exact hpkeys k hk'
    · intro h
      exfalso
      have : acc.total_pairable_values + (nonNanIndices u).length = 0 := h
      omega

/-- The whole unit loop of `compute_observed_disagreement` satisfies the
conservation invariant for nominal/ordinal data. -/
theorem obsUnitsFold_ObsInv (m : Mat) (w : List ℚ) (dist : ℚ → ℚ → EF)
    (dt : DataTypeEnum) (hdt : dt = .nominal ∨ dt = .ordinal) :
    ObsInv m (obsUnitsFold (columnsOf m) w dist dt) := by
  rw [obsUnitsFold]
  exact foldl_preserves (P := ObsInv m) _ _ _
    (fun acc u hu hacc => obsStep_ObsInv m w dist dt hdt acc u hu hacc)
    ⟨rfl, by simp [keysOf], by simp [keysOf], fun _ => rfl⟩

/-- `int()` truncation is injective on integral values. -/
theorem truncToInt_inj_on_int {x y : ℚ} (hx : ∃ n : ℤ, x = (n : ℚ))
    (hy : ∃ n : ℤ, y = (n : ℚ)) (h : truncToInt x = truncToInt y) : x = y := by
  obtain ⟨a, rfl⟩ := hx
  obtain ⟨b, rfl⟩ := hy
  rw [truncToInt_intCast, truncToInt_intCast] at h
  exact_mod_cast h

/-- When every observed value is integral, the `int()` keys of the distinct
sorted categories are themselves distinct. -/
theorem nodup_trunc_uniqueSorted (l : List ℚ)
    (hint : ∀ x ∈ l, ∃ n : ℤ, x = (n : ℚ)) :
    ((uniqueSorted l).map truncToInt).Nodup :=
  (nodup_uniqueSorted l).map_on (fun x hx y hy he =>
    truncToInt_inj_on_int (hint x (mem_uniqueSorted.1 hx))
      (hint y (mem_uniqueSorted.1 hy)) he)

/-- C2, amended.  The claim as stated — that the reported per-category
observed scores sum to the reported total observed disagreement within
rounding tolerance — is FALSE, because `compute_per_category_scores`
divides each category's attributed disagreement by that category's own
pairwise count `max(pairwise_counts[int(c)], 1)` while `D_o` is the total
attributed disagreement divided by the total number of pairable values;
the counterexample exhibits a gap of `1/200`, far beyond the `3/2000`
explainable by rounding three numbers to 3 places.  The conservation law
the code actually satisfies, proved here for every matrix of integral
coded values with no label mapping: re-multiplying each reported
per-category observed score by the divisor it was normalised with and
summing over all categories yields exactly `D_o` times the total number of
pairable values (the un-normalised observed-disagreement numerator). -/
theorem C2_per_category_conservation (m : Mat) (w : List ℚ)
    (scale : Option (List ℚ)) (dt : DataTypeEnum)
    (hdt : dt = .nominal ∨ dt = .ordinal)
    (hint : ∀ x ∈ flatNonMissing m, ∃ n : ℤ, x = (n : ℚ))
    (scores : List (PVal × (EF × EF)))
    (hs : compute_per_category_scores (uniqueSorted (flatNonMissing m))
        (compute_observed_disagreement m w (distanceFor dt scale) dt).2.1
        (compute_expected_disagreement m (distanceFor dt scale) dt).2
        (compute_observed_disagreement m w (distanceFor dt scale) dt).2.2
        none = .ok scores) :
    sumEF ((uniqueSorted (flatNonMissing m)).map (fun u =>
        (dget scores (.numStr u) (.fin 0, .fin 0)).1.mul
          (.fin ((max (dget
              (compute_observed_disagreement m w (distanceFor dt scale) dt).2.2
              (truncToInt u) 1) 1 : ℕ) : ℚ)))) =
      (compute_observed_disagreement m w (distanceFor dt scale) dt).1.mul
        (.fin ((obsUnitsFold (columnsOf m) w (distanceFor dt scale)
            dt).total_pairable_values : ℚ)) := by
  obtain ⟨hsum, hnd, hkeys, htot⟩ :=
    obsUnitsFold_ObsInv m w (distanceFor dt scale) dt hdt
  have hod1 : (compute_observed_disagreement m w (distanceFor dt scale) dt).1 =
      (if 0 < (obsUnitsFold (columnsOf m) w (distanceFor dt scale)
            dt).total_pairable_values
       then (obsUnitsFold (columnsOf m) w (distanceFor dt scale)
            dt).observed_disagreement.div
          (.fin ((obsUnitsFold (columnsOf m) w (distanceFor dt scale)
              dt).total_pairable_values : ℚ))
       else .fin 0) := rfl
  have hod21 : (compute_observed_disagreement m w (distanceFor dt scale) dt).2.1 =
      (obsUnitsFold (columnsOf m) w (distanceFor dt scale)
        dt).per_category_obs_dis := rfl
  have hod22 : (compute_observed_disagreement m w (distanceFor dt scale) dt).2.2 =
      (obsUnitsFold (columnsOf m) w (distanceFor dt scale) dt).pairwise_counts := rfl
  rw [hod21, hod22] at hs
  rw [compute_per_category_scores] at hs
  rw [perCatGo_none_shape _ _ _ _ [] (nodup_uniqueSorted _)
    (by simp [keysOf])] at hs
  have hscores : scores = (uniqueSorted (flatNonMissing m)).map
      (perCatEntry
        (obsUnitsFold (columnsOf m) w (distanceFor dt scale) dt).per_category_obs_dis
        (compute_expected_disagreement m (distanceFor dt scale) dt).2
        (obsUnitsFold (columnsOf m) w (distanceFor dt scale) dt).pairwise_counts) := by
    simpa using hs.symm
  rw [hod1, hod22]
  have hmapeq : (uniqueSorted (flatNonMissing m)).map (fun u =>
        (dget scores (.numStr u) (.fin 0, .fin 0)).1.mul
          (.fin ((max (dget (obsUnitsFold (columnsOf m) w (distanceFor dt scale)
              dt).pairwise_counts (truncToInt u) 1) 1 : ℕ) : ℚ))) =
      (uniqueSorted (flatNonMissing m)).map (fun u =>
        dget (obsUnitsFold (columnsOf m) w (distanceFor dt scale)
          dt).per_category_obs_dis (truncToInt u) (.fin 0)) := by
    refine List.map_congr_left (fun u hu => ?_)
    rw [hscores, dget_map_perCatEntry _ _ _ _ (nodup_uniqueSorted _) u hu]
    show ((dget (obsUnitsFold (columnsOf m) w (distanceFor dt scale)
          dt).per_category_obs_dis (truncToInt u) (.fin 0)).div
        (.fin ((max (dget (obsUnitsFold (columnsOf m) w (distanceFor dt scale)
            dt).pairwise_counts (truncToInt u) 1) 1 : ℕ) : ℚ))).mul
        (.fin ((max (dget (obsUnitsFold (columnsOf m) w (distanceFor dt scale)
            dt).pairwise_counts (truncToInt u) 1) 1 : ℕ) : ℚ)) =
      dget (obsUnitsFold (columnsOf m) w (distanceFor dt scale)
        dt).per_category_obs_dis (truncToInt u) (.fin 0)
    refine EF.div_mul_cancel _ _ ?_
    have h1 : 0 < max (dget (obsUnitsFold (columnsOf m) w (distanceFor dt scale)
        dt).pairwise_counts (truncToInt u) 1) 1 :=
      lt_of_lt_of_le Nat.one_pos (le_max_right _ _)
    exact_mod_cast h1
  rw [hmapeq]
  have hchain : sumEF ((uniqueSorted (flatNonMissing m)).map (fun u =>
      dget (obsUnitsFold (columnsOf m) w (distanceFor dt scale)
        dt).per_category_obs_dis (truncToInt u) (.fin 0))) =
      dictSumEF (obsUnitsFold (columnsOf m) w (distanceFor dt scale)
        dt).per_category_obs_dis := by
    have h1 : (uniqueSorted (flatNonMissing m)).map (fun u =>
        dget (obsUnitsFold (columnsOf m) w (distanceFor dt scale)
          dt).per_category_obs_dis (truncToInt u) (.fin 0)) =
        ((uniqueSorted (flatNonMissing m)).map truncToInt).map (fun k =>
          dget (obsUnitsFold (columnsOf m) w (distanceFor dt scale)
            dt).per_category_obs_dis k (.fin 0)) := by
      rw [List.map_map]
      rfl
    rw [h1]
    refine sumEF_dget_eq_dictSumEF _ _ (nodup_trunc_uniqueSorted _ hint) hnd
      (fun k hk => ?_)
    obtain ⟨x, hxmem, rfl⟩ := hkeys k hk
    exact List.mem_map.2 ⟨x, mem_uniqueSorted.2 hxmem, rfl⟩
  rw [hchain, hsum]
  by_cases hpos : 0 < (obsUnitsFold (columnsOf m) w (distanceFor dt scale)
      dt).total_pairable_values
  · rw [if_pos hpos]
    exact (EF.div_mul_cancel _ _ (by exact_mod_cast hpos)).symm
  · rw [if_neg hpos]
    have h0 : (obsUnitsFold (columnsOf m) w (distanceFor dt scale)
        dt).total_pairable_values = 0 := by omega
    rw [htot h0, h0]
    norm_num

/-- A 3x3 nominal matrix in which the middle annotator disagrees with the
other two on every unit (the spec's scenario of maximal pairwise
disagreement between one coder and the rest). -/
def scB : Mat :=
  [[some 1, some 0, some 1], [some 0, some 1, some 0], [some 1, some 0, some 1]]

/-- The un-rounded per-category scores that `compute_per_category_scores`
returns on the scenario matrix: category 0 was attributed `3/2` observed
disagreement over 8 pairwise appearances (`3/16`), category 1 the same
`3/2` over 10 (`3/20`). -/
def scBscores : List (PVal × (EF × EF)) :=
  [(.numStr 0, (.fin (3/16), .fin (20/81))),
   (.numStr 1, (.fin (3/20), .fin (20/81)))]

set_option maxHeartbeats 2000000 in
theorem scB_scores_eval :
    compute_per_category_scores (uniqueSorted (flatNonMissing scB))
        (compute_observed_disagreement scB [1, 1, 1]
          (distanceFor .nominal none) .nominal).2.1
        (compute_expected_disagreement scB (distanceFor .nominal none) .nominal).2
        (compute_observed_disagreement scB [1, 1, 1]
          (distanceFor .nominal none) .nominal).2.2
        none = .ok scBscores := by
  norm_num [scB, scBscores, distanceFor, nominal_distance,
    compute_observed_disagreement, obsUnitsFold, columnsOf, numCols, colOf,
    obsStep, nonNanIndices, pairsOf, valAt, process_unit_pairs, pairStep,
    calculate_unit_weight, SYMMETRIC_DISAGREEMENT_DIVISOR, truncToInt_q0,
    truncToInt_q1, dget, dset, mergeAddEF, mergeAddNat,
    compute_expected_disagreement, flatNonMissing, uniqueSorted, insSortQ,
    insertSortedQ, collapseDupsQ, compute_per_category_scores, perCatGo,
    perCatKey, EF.add, EF.mul, EF.div, List.find?, List.range_succ,
    List.filterMap_cons, List.count_cons, List.count_nil, -Int.self_sub_floor]

theorem scB_flat_int : ∀ x ∈ flatNonMissing scB, ∃ n : ℤ, x = (n : ℚ) := by
  have hflat : flatNonMissing scB = [1, 0, 1, 0, 1, 0, 1, 0, 1] := by
    norm_num [flatNonMissing, scB, List.filterMap_cons]
  intro x hx
  rw [hflat] at hx
  simp only [List.mem_cons, List.not_mem_nil, or_false] at hx
  rcases hx with rfl | rfl | rfl | rfl | rfl | rfl | rfl | rfl | rfl
  · exact ⟨1, by norm_num⟩
  · exact ⟨0, by norm_num⟩
  · exact ⟨1, by norm_num⟩
  · exact ⟨0, by norm_num⟩
  · exact ⟨1, by norm_num⟩
  · exact ⟨0, by norm_num⟩
  · exact ⟨1, by norm_num⟩
  · exact ⟨0, by norm_num⟩
  · exact ⟨1, by norm_num⟩

/-- C2 witness: the amended conservation law instantiated on the scenario
matrix — the reported scores `3/16` and `3/20`, re-multiplied by their
divisors 8 and 10, sum to `D_o` (`1/3`) times the 9 pairable values. -/
theorem C2_per_category_conservation_witness :
    sumEF ((uniqueSorted (flatNonMissing scB)).map (fun u =>
        (dget scBscores (.numStr u) (.fin 0, .fin 0)).1.mul
          (.fin ((max (dget
              (compute_observed_disagreement scB [1, 1, 1]
                (distanceFor .nominal none) .nominal).2.2
              (truncToInt u) 1) 1 : ℕ) : ℚ)))) =
      (compute_observed_disagreement scB [1, 1, 1]
          (distanceFor .nominal none) .nominal).1.mul
        (.fin ((obsUnitsFold (columnsOf scB) [1, 1, 1]
            (distanceFor .nominal none) .nominal).total_pairable_values : ℚ)) :=
  C2_per_category_conservation scB [1, 1, 1] none .nominal (Or.inl rfl)
    scB_flat_int scBscores scB_scores_eval

set_option maxHeartbeats 2000000 in
/-- C2 counterexample to the claim as stated: on the scenario matrix the
reported per-category observed scores are `0.188` and `0.15`, summing to
`0.338`, while the reported total observed disagreement is `0.333`; the gap
`1/200` exceeds the at most `3/2000` attributable to rounding three numbers
to 3 decimal places, so the reported per-category observed scores do NOT
sum to the reported total within rounding tolerance. -/
theorem C2_per_category_conservation_counterexample :
    krippendorff_alpha scB .nominal none none [1, 1, 1] =
      .ok ⟨.fin (13/40), .fin (333/1000), .fin (247/500),
        some [(.numStr 0, (.fin (47/250), .fin (247/1000))),
              (.numStr 1, (.fin (3/20), .fin (247/1000)))]⟩ ∧
    (EF.fin (47/250)).add (.fin (3/20)) = .fin (169/500) ∧
    ¬ ((169/500 : ℚ) - 333/1000 ≤ 3/2000) := by
  refine ⟨?_, by norm_num, by norm_num⟩
  norm_num [scB, krippendorff_alpha, MIN_ANNOTATORS_REQUIRED,
    MIN_SUBJECTS_REQUIRED, distanceFor, nominal_distance,
    compute_observed_disagreement, obsUnitsFold, columnsOf, numCols, colOf,
    obsStep, nonNanIndices, pairsOf, valAt, process_unit_pairs, pairStep,
    calculate_unit_weight, SYMMETRIC_DISAGREEMENT_DIVISOR, truncToInt_q0,
    truncToInt_q1, dget, dset, mergeAddEF, mergeAddNat,
    compute_expected_disagreement, flatNonMissing, uniqueSorted, insSortQ,
    insertSortedQ, collapseDupsQ, compute_per_category_scores, perCatGo,
    perCatKey, EF.add, EF.mul, EF.div, EF.sub, EF.neg, EF.gtZero, EF.round3,
    round3q, roundHE, DEFAULT_DECIMAL_PLACES, List.find?, List.range_succ,
    List.filterMap_cons, List.count_cons, List.count_nil, -Int.self_sub_floor]

end Krip
